import Mathlib

/-!
# Verification of the prlens review pipeline

A shallow embedding of the core review pipeline of the `prlens` repository
(packages/core/src/prlens_core): the diff-coordinate mapper and line-content
lookup (`reviewer.py`), finding-to-comment processing with deduplication
(`reviewer.py`), verdict selection (`reviewer.py`), codebase-context
rendering with size budgeting (`utils/context.py`), model-response parsing
and the retry wrapper (`providers/base.py`), the incremental-review marker
lookup (`gh/pull_request.py`), and the orchestration flow of `run_review`
(`reviewer.py`).

Python strings are modelled as Lean `String` (a list of unicode scalar
values, matching Python `len`/indexing on code points for the inputs in
scope).  Python `dict[int, int]` built by indexed assignment is modelled as
an association list in recording order with last-binding-wins lookup, which
matches `dict` semantics (keys as a set, latest assignment wins).
-/

/-! ## Python string primitives -/

/-- Python `str.splitlines` restricted to the line terminators `\n`, `\r\n`
and `\r` (the universal-newline set relevant to text handled here): split on
each terminator, with no trailing empty line for a trailing terminator.
Accumulates the current line in reverse. -/
def splitlinesAux : List Char → List Char → List (List Char)
  | [], acc => if acc.isEmpty then [] else [acc.reverse]
  | '\r' :: '\n' :: rest, acc => acc.reverse :: splitlinesAux rest []
  | '\r' :: rest, acc => acc.reverse :: splitlinesAux rest []
  | '\n' :: rest, acc => acc.reverse :: splitlinesAux rest []
  | c :: rest, acc => splitlinesAux rest (c :: acc)

/-- Python `str.splitlines`. -/
def pySplitlines (s : String) : List String :=
  (splitlinesAux s.data []).map String.mk

/-- The ASCII whitespace set stripped by Python `str.strip()` and matched by
the regex class `\s` (space, tab, newline, carriage return, vertical tab,
form feed). -/
def isPyWS (c : Char) : Bool :=
  c = ' ' || c = '\t' || c = '\n' || c = '\r' || c = '\x0b' || c = '\x0c'

/-- Drop matching characters from the right end of a character list. -/
def dropRightWhileP (p : Char → Bool) (l : List Char) : List Char :=
  (l.reverse.dropWhile p).reverse

/-- Python `str.strip()` (no argument): remove leading and trailing
whitespace. -/
def pyStrip (s : String) : String :=
  ⟨dropRightWhileP isPyWS (s.data.dropWhile isPyWS)⟩

/-- Python `str.startswith(p)`. -/
def strStarts (s p : String) : Bool :=
  p.data.isPrefixOf s.data

/-- Python `str.split(sep)` for a one-character separator `sep` (the only
form used by the code under verification). -/
def splitOnChar (c : Char) : List Char → List (List Char)
  | [] => [[]]
  | x :: rest =>
    if x = c then [] :: splitOnChar c rest
    else
      match splitOnChar c rest with
      | [] => [[x]]
      | h :: t => (x :: h) :: t

/-- Digit-run parser for Python `int(str)`: digits with single underscores
allowed between digits (Python's numeric-literal grouping rule).  The flag
records whether the previous character was a digit. -/
def pyIntDigits : List Char → Nat → Bool → Option Nat
  | [], acc, lastDigit => if lastDigit then some acc else none
  | c :: rest, acc, lastDigit =>
    if c.isDigit then pyIntDigits rest (acc * 10 + (c.toNat - 48)) true
    else if c = '_' && lastDigit then pyIntDigits rest acc false
    else none

/-- Python `int(str)` on ASCII decimal input: strip surrounding whitespace,
an optional sign, then a digit run; `none` models `ValueError`. -/
def pyInt (s : String) : Option Int :=
  let t := dropRightWhileP isPyWS (s.data.dropWhile isPyWS)
  match t with
  | '+' :: rest => (pyIntDigits rest 0 false).map Int.ofNat
  | '-' :: rest => (pyIntDigits rest 0 false).map (fun n => -(n : Int))
  | _ => (pyIntDigits t 0 false).map Int.ofNat

/-- Python `needle in hay` substring test. -/
def isSubstr (needle hay : List Char) : Bool :=
  hay.tails.any (fun t => needle.isPrefixOf t)

/-- Python `str.upper()` on the ASCII severity labels used here. -/
def pyUpper (s : String) : String :=
  ⟨s.data.map Char.toUpper⟩

/-- Python `str.lower()` on the ASCII answers used here. -/
def pyLower (s : String) : String :=
  ⟨s.data.map Char.toLower⟩

/-! ## `reviewer.get_diff_positions` — the diff-coordinate mapper

Source: `packages/core/src/prlens_core/reviewer.py`, `get_diff_positions`.
-/

/-- `line.split("+")[1].split(" ")[0].split(",")[0]` fed to `int(...)`, with
`none` modelling the `except Exception: file_line = None` handler (both the
`IndexError` when the header has no `+` and the `ValueError` from `int`). -/
def parseHunkNewStart (line : String) : Option Int :=
  match splitOnChar '+' line.data with
  | _ :: second :: _ =>
    let afterSpace := (splitOnChar ' ' second).headD []
    let beforeComma := (splitOnChar ',' afterSpace).headD []
    pyInt ⟨beforeComma⟩
  | _ => none

/-- `line.startswith("@@")`. -/
def isHunkHeader (line : String) : Bool := strStarts line "@@"

/-- `line.startswith("+") and not line.startswith("+++")`. -/
def isPlusLine (line : String) : Bool :=
  strStarts line "+" && !(strStarts line "+++")

/-- `line.startswith("-") and not line.startswith("---")`. -/
def isMinusLine (line : String) : Bool :=
  strStarts line "-" && !(strStarts line "---")

/-- Loop state of `get_diff_positions`: the `positions` dict (as an
association list in recording order), the cumulative `diff_position`
counter and the current new-file `file_line` (`None` when undefined). -/
structure DPState where
  entries : List (Int × Nat)
  diffPos : Nat
  fileLine : Option Int
deriving DecidableEq

/-- One iteration of the `for line in patch_text.splitlines()` loop of
`get_diff_positions`. -/
def dpStep (s : DPState) (line : String) : DPState :=
  if isHunkHeader line then
    { s with fileLine := parseHunkNewStart line }
  else
    let d := s.diffPos + 1
    if isPlusLine line then
      match s.fileLine with
      | some n => ⟨s.entries ++ [(n, d)], d, some (n + 1)⟩
      | none => { s with diffPos := d }
    else if isMinusLine line then
      { s with diffPos := d }
    else
      match s.fileLine with
      | some n => { s with diffPos := d, fileLine := some (n + 1) }
      | none => { s with diffPos := d }

/-- Initial loop state: empty dict, `diff_position = 0`, `file_line = None`. -/
def dpInit : DPState := ⟨[], 0, none⟩

/-- Run the loop of `get_diff_positions` over a list of lines. -/
def dpRunLines (lines : List String) : DPState :=
  lines.foldl dpStep dpInit

/-- The `positions` dict built by `get_diff_positions`, as an association
list in recording order. -/
def getDiffEntries (patch : String) : List (Int × Nat) :=
  (dpRunLines (pySplitlines patch)).entries

/-- Lookup in a dict modelled as an association list: the latest assignment
to a key wins. -/
def dictFind (l : List (Int × Nat)) (k : Int) : Option Nat :=
  (l.reverse.find? (fun e => e.1 == k)).map (·.2)

/-- `get_diff_positions(patch_text)` as a lookup function. -/
def get_diff_positions (patch : String) : Int → Option Nat :=
  dictFind (getDiffEntries patch)

/-- Loop of `get_patch_line_content(patch_text, target_line)`: returns the
source content of a new-file line, with the diff marker stripped for `+` and
context lines; `""` when the line is never reached. -/
def patchLineAux (target : Int) : List String → Option Int → String
  | [], _ => ""
  | line :: rest, fl =>
    if isHunkHeader line then patchLineAux target rest (parseHunkNewStart line)
    else if isMinusLine line then patchLineAux target rest fl
    else
      match fl with
      | some n =>
        if n = target then
          if line ≠ "" && (line.data.headD ' ' = '+' || line.data.headD ' ' = ' ') then
            ⟨line.data.tail⟩
          else line
        else patchLineAux target rest (some (n + 1))
      | none => patchLineAux target rest none

/-- `get_patch_line_content(patch_text, target_line)`. -/
def get_patch_line_content (patch : String) (target : Int) : String :=
  patchLineAux target (pySplitlines patch) none

/-- Stated from the spec's wording for the coordinate-mapper contract: the
new-file line numbers of lines beginning with `+` (and not `+++`), scanned
in order while a valid hunk header is in effect — a hunk header resets the
counter to the parsed start `c` (undefined if unparseable), a `+` line
records the counter then increments it, a `-` line leaves it unchanged, any
other line increments it. -/
def specPlusLineNumbers : List String → Option Int → List Int
  | [], _ => []
  | line :: rest, fl =>
    if isHunkHeader line then specPlusLineNumbers rest (parseHunkNewStart line)
    else if isPlusLine line then
      match fl with
      | some n => n :: specPlusLineNumbers rest (some (n + 1))
      | none => specPlusLineNumbers rest none
    else if isMinusLine line then specPlusLineNumbers rest fl
    else specPlusLineNumbers rest (fl.map (· + 1))

/-! ## Lemmas about the coordinate-mapper loop -/

lemma dpFold_entries_fst (lines : List String) : ∀ s : DPState,
    ((lines.foldl dpStep s).entries).map Prod.fst
      = s.entries.map Prod.fst ++ specPlusLineNumbers lines s.fileLine := by
  induction lines with
  | nil => intro s; simp [specPlusLineNumbers]
  | cons line rest ih =>
    intro s
    simp only [List.foldl_cons]
    rw [ih]
    by_cases hh : isHunkHeader line = true
    · simp [dpStep, specPlusLineNumbers, hh]
    · by_cases hp : isPlusLine line = true
      · cases hfl : s.fileLine with
        | some n => simp [dpStep, specPlusLineNumbers, hh, hp, hfl]
        | none => simp [dpStep, specPlusLineNumbers, hh, hp, hfl]
      · by_cases hm : isMinusLine line = true
        · simp [dpStep, specPlusLineNumbers, hh, hp, hm]
        · cases hfl : s.fileLine <;>
            simp [dpStep, specPlusLineNumbers, hh, hp, hm, hfl]

lemma dpStep_header (s : DPState) (line : String)
    (hh : isHunkHeader line = true) :
    dpStep s line = { s with fileLine := parseHunkNewStart line } := by
  simp [dpStep, hh]

lemma dpStep_plus_some (s : DPState) (line : String) (n : Int)
    (hh : isHunkHeader line = false) (hp : isPlusLine line = true)
    (hfl : s.fileLine = some n) :
    dpStep s line
      = ⟨s.entries ++ [(n, s.diffPos + 1)], s.diffPos + 1, some (n + 1)⟩ := by
  simp [dpStep, hh, hp, hfl]

lemma dpStep_entries_same (s : DPState) (line : String)
    (hh : isHunkHeader line = false)
    (hno : isPlusLine line = false ∨ s.fileLine = none) :
    (dpStep s line).entries = s.entries := by
  rcases hno with hp | hfl
  · cases hm : isMinusLine line <;> cases hfl : s.fileLine <;>
      simp [dpStep, hh, hp, hm, hfl]
  · cases hp : isPlusLine line <;> cases hm : isMinusLine line <;>
      simp [dpStep, hh, hp, hm, hfl]

lemma dpStep_diffPos_nonheader (s : DPState) (line : String)
    (hh : isHunkHeader line = false) :
    (dpStep s line).diffPos = s.diffPos + 1 := by
  cases hp : isPlusLine line <;> cases hm : isMinusLine line <;>
    cases hfl : s.fileLine <;> simp [dpStep, hh, hp, hm, hfl]

lemma dpFold_invariant (lines : List String) : ∀ s : DPState,
    List.Pairwise (· < ·) (s.entries.map Prod.snd) →
    (∀ v ∈ s.entries.map Prod.snd, v ≤ s.diffPos) →
    List.Pairwise (· < ·) (((lines.foldl dpStep s).entries).map Prod.snd) ∧
      ∀ v ∈ ((lines.foldl dpStep s).entries).map Prod.snd,
        v ≤ (lines.foldl dpStep s).diffPos := by
  induction lines with
  | nil => intro s h1 h2; exact ⟨h1, h2⟩
  | cons line rest ih =>
    intro s h1 h2
    simp only [List.foldl_cons]
    cases hh : isHunkHeader line with
    | true =>
      refine ih _ ?_ ?_ <;> rw [dpStep_header s line hh]
      · exact h1
      · exact h2
    | false =>
      have hd := dpStep_diffPos_nonheader s line hh
      by_cases hplus : isPlusLine line = true ∧ ∃ n, s.fileLine = some n
      · obtain ⟨hp, n, hfl⟩ := hplus
        rw [dpStep_plus_some s line n hh hp hfl]
        refine ih _ ?_ ?_
        · rw [List.map_append, List.pairwise_append]
          refine ⟨h1, by simp, ?_⟩
          intro a ha b hb
          simp at hb
          subst hb
          exact Nat.lt_succ_of_le (h2 a ha)
        · intro v hv
          rw [List.map_append] at hv
          rcases List.mem_append.mp hv with hmem | hmem
          · exact Nat.le_succ_of_le (h2 v hmem)
          · simp at hmem; subst hmem; simp
      · have hsame : (dpStep s line).entries = s.entries := by
          apply dpStep_entries_same s line hh
          by_cases hp : isPlusLine line = true
          · right
            cases hfl : s.fileLine with
            | some n => exact absurd ⟨hp, n, hfl⟩ hplus
            | none => rfl
          · left; exact Bool.not_eq_true _ ▸ (by simpa using hp)
        refine ih _ ?_ ?_
        · rw [hsame]; exact h1
        · rw [hsame, hd]
          intro v hv
          exact Nat.le_succ_of_le (h2 v hv)

lemma dpFold_diffPos (lines : List String) : ∀ s : DPState,
    (lines.foldl dpStep s).diffPos
      = s.diffPos + (lines.filter (fun l => !(isHunkHeader l))).length := by
  induction lines with
  | nil => intro s; simp
  | cons line rest ih =>
    intro s
    simp only [List.foldl_cons]
    rw [ih]
    by_cases hh : isHunkHeader line = true
    · simp [dpStep, hh]
    · have hd : (dpStep s line).diffPos = s.diffPos + 1 := by
        by_cases hp : isPlusLine line = true
        · cases hfl : s.fileLine <;> simp [dpStep, hh, hp, hfl]
        · by_cases hm : isMinusLine line = true
          · simp [dpStep, hh, hp, hm]
          · cases hfl : s.fileLine <;> simp [dpStep, hh, hp, hm, hfl]
      rw [hd]
      simp [hh]
      omega

lemma dpFold_no_header_none (lines : List String) : ∀ s : DPState,
    s.fileLine = none → (∀ l ∈ lines, isHunkHeader l = false) →
    (lines.foldl dpStep s).entries = s.entries ∧
      (lines.foldl dpStep s).fileLine = none := by
  induction lines with
  | nil => intro s h1 _; exact ⟨rfl, h1⟩
  | cons line rest ih =>
    intro s h1 h2
    simp only [List.foldl_cons]
    have hh : isHunkHeader line = false := h2 line (by simp)
    have hstep : dpStep s line = { s with diffPos := s.diffPos + 1 } := by
      by_cases hp : isPlusLine line = true
      · simp [dpStep, hh, hp, h1]
      · by_cases hm : isMinusLine line = true
        · simp [dpStep, hh, hp, hm]
        · simp [dpStep, hh, hp, hm, h1]
    rw [hstep]
    exact ih _ h1 (fun l hl => h2 l (by simp [hl]))

/-- The `positions` dict built by the `get_diff_positions` loop over an
explicit list of patch lines. -/
def entriesOfLines (lines : List String) : List (Int × Nat) :=
  (dpRunLines lines).entries

/-- C1: for every unified-diff text, the keys of the map built by
`get_diff_positions` are exactly the new-file line numbers of lines
beginning with `+` (and not `+++`) scanned while a valid hunk header is in
effect (in scan order); the recorded positions are strictly increasing in
scan order and never reset between hunks; a hunk header consumes no
position while every non-header line consumes exactly one (the final
position counter equals the number of non-header lines); and an empty patch
yields an empty map. -/
theorem diff_positions_spec :
    getDiffEntries "" = [] ∧
    (∀ patch : String,
      (getDiffEntries patch).map Prod.fst
        = specPlusLineNumbers (pySplitlines patch) none) ∧
    (∀ patch : String,
      List.Pairwise (· < ·) ((getDiffEntries patch).map Prod.snd)) ∧
    (∀ patch : String,
      (dpRunLines (pySplitlines patch)).diffPos
        = ((pySplitlines patch).filter (fun l => !(isHunkHeader l))).length) := by
  refine ⟨rfl, ?_, ?_, ?_⟩
  · intro patch
    simpa [getDiffEntries, dpRunLines, dpInit] using
      dpFold_entries_fst (pySplitlines patch) dpInit
  · intro patch
    exact (dpFold_invariant (pySplitlines patch) dpInit
      (by simp [dpInit]) (by simp [dpInit])).1
  · intro patch
    simpa [dpRunLines, dpInit] using dpFold_diffPos (pySplitlines patch) dpInit

/-- C9: a patch whose split lines contain a hunk header that cannot be
parsed (`parseHunkNewStart` yields `none`, modelling the swallowed
`IndexError`/`ValueError`) records no position entries for the lines
following that header until a subsequent valid header is seen: over any
header-free segment `mid` following the bad header, the entries stay
exactly those of the prefix `pre`, and the full map of the patch is the
one obtained by resuming from that unchanged state on the remaining lines
`rest` (which may begin with a valid header, after which recording
resumes; the cumulative position counter still advances through `mid`).
`get_diff_positions` is a total Lean function, so non-raising is inherent
to the model. -/
theorem malformed_hunk_header_records_nothing
    (patch : String) (pre : List String) (h : String) (mid rest : List String)
    (hsplit : pySplitlines patch = pre ++ h :: (mid ++ rest))
    (hh : isHunkHeader h = true)
    (hbad : parseHunkNewStart h = none)
    (hmid : ∀ l ∈ mid, isHunkHeader l = false) :
    (mid.foldl dpStep (dpRunLines (pre ++ [h]))).entries
      = entriesOfLines pre ∧
    getDiffEntries patch
      = (rest.foldl dpStep (mid.foldl dpStep (dpRunLines (pre ++ [h])))).entries := by
  have hs₁ : dpRunLines (pre ++ [h])
      = { dpRunLines pre with fileLine := none } := by
    unfold dpRunLines
    rw [List.foldl_append]
    simp only [List.foldl_cons, List.foldl_nil]
    simp [dpStep, hh, hbad]
  constructor
  · rw [hs₁]
    exact (dpFold_no_header_none mid _ rfl hmid).1
  · unfold getDiffEntries dpRunLines
    rw [hsplit, List.foldl_append]
    simp only [List.foldl_cons]
    rw [List.foldl_append]
    have hstep : dpStep (List.foldl dpStep dpInit pre) h
        = dpRunLines (pre ++ [h]) := by
      unfold dpRunLines
      rw [List.foldl_append]
      simp
    rw [hstep]
    rfl

/-- Witness for C9 at a patch whose first, malformed header is followed by
an added line (recorded nowhere) and then a later valid header after which
recording resumes at the cumulative position. -/
theorem malformed_hunk_header_records_nothing_witness :
    (["+skipped line"].foldl dpStep
        (dpRunLines (([] : List String) ++ ["@@ bad header @@"]))).entries
      = entriesOfLines [] ∧
    getDiffEntries
        "@@ bad header @@\n+skipped line\n@@ -1,2 +1,3 @@\n line1\n+new line\n line2\n"
      = ((["@@ -1,2 +1,3 @@", " line1", "+new line", " line2"].foldl dpStep
          (["+skipped line"].foldl dpStep
            (dpRunLines (([] : List String) ++ ["@@ bad header @@"]))))).entries :=
  malformed_hunk_header_records_nothing
    "@@ bad header @@\n+skipped line\n@@ -1,2 +1,3 @@\n line1\n+new line\n line2\n"
    [] "@@ bad header @@" ["+skipped line"]
    ["@@ -1,2 +1,3 @@", " line1", "+new line", " line2"]
    (by decide) (by decide) (by decide) (by decide)

/-! ## Findings, existing comments and `process_file`

Source: `packages/core/src/prlens_core/reviewer.py` (`_SEVERITY_RANK`,
`_determine_event`, `already_commented`, `process_file`).

A model finding is one JSON object of the provider response, read through
`dict.get` exactly as `process_file` does: `comment.get("line")` (absent key
modelled as `none`), `comment.get("comment", "")` and
`comment.get("severity", "minor")` (absent keys modelled by the defaults).
-/

/-- One raw model finding as consumed by `process_file`. -/
structure Finding where
  line : Option Int := none
  severity : String := "minor"
  comment : String := ""
deriving DecidableEq

/-- An existing host review comment as consumed by `already_commented`:
`line` is `None` when the commented line no longer exists in the diff, and
`original_line` models `getattr(c, "original_line", None)`. -/
structure ExistingComment where
  path : String := ""
  line : Option Int := none
  original_line : Option Int := none
  body : String := ""
deriving DecidableEq

/-- A validated, submission-ready comment dict as built by `process_file`. -/
structure CommentD where
  path : String
  position : Nat
  body : String
  line : Int
  severity : String
  code : String
deriving DecidableEq

/-- The keys of `_SEVERITY_RANK`. -/
def severityRankKeys : List String := ["critical", "major", "minor", "nitpick"]

/-- The dedup key `(file.filename, line, text.strip())` stored in the
`queued` set. -/
abbrev DedupKey := String × Int × String

/-- `already_commented(existing_comments, file_path, file_line, comment_text,
queued)`: true when the `(path, line, stripped text)` key is already queued
in this run, or when an existing host comment on the same path and line
(falling back to `original_line` when `line` is `None`) contains the
stripped text in its stripped body. -/
def already_commented (existing : List ExistingComment) (file_path : String)
    (file_line : Int) (comment_text : String) (queued : Option (List DedupKey)) :
    Bool :=
  let text := pyStrip comment_text
  if (match queued with
      | some q => q.contains (file_path, file_line, text)
      | none => false) then
    true
  else
    existing.any (fun c =>
      let comment_line := match c.line with
        | some v => some v
        | none => c.original_line
      c.path == file_path && comment_line == some file_line &&
        isSubstr text.data (pyStrip c.body).data)

/-- `f"**[{severity.upper()}]**\n\n{text}"`. -/
def commentBody (severity text : String) : String :=
  "**[" ++ pyUpper severity ++ "]**" ++ "\n\n" ++ text

/-- `queued.add((file.filename, line, text.strip()))` on the set model. -/
def queuedAdd (queued : Option (List DedupKey)) (k : DedupKey) :
    Option (List DedupKey) :=
  match queued with
  | some q => some (if q.contains k then q else q ++ [k])
  | none => none

/-- The `for comment in comments` loop of `process_file`: severity coercion,
the emptiness / position-map / duplicate filters, comment construction, and
the `queued` update, threading the `queued` set through (Python mutates it
in place; the model returns the final set). -/
def reviewLoop (fname : String) (patch : String) (entries : List (Int × Nat))
    (existing : List ExistingComment) :
    List Finding → Option (List DedupKey) → List CommentD × Option (List DedupKey)
  | [], queued => ([], queued)
  | f :: rest, queued =>
    let severity := if severityRankKeys.contains f.severity then f.severity else "minor"
    match f.line with
    | none => reviewLoop fname patch entries existing rest queued
    | some line =>
      if line = 0 || f.comment = "" then
        reviewLoop fname patch entries existing rest queued
      else
        match dictFind entries line with
        | none => reviewLoop fname patch entries existing rest queued
        | some pos =>
          if already_commented existing fname line f.comment queued then
            reviewLoop fname patch entries existing rest queued
          else
            let c : CommentD :=
              ⟨fname, pos, commentBody severity f.comment, line, severity,
                get_patch_line_content patch line⟩
            let queued' := queuedAdd queued (fname, line, pyStrip f.comment)
            let r := reviewLoop fname patch entries existing rest queued'
            (c :: r.1, r.2)

/-- `process_file`: the guards on filename, patch and status, then the
finding loop.  The `reviewer.review(...)` call is external model I/O; its
returned finding list is taken as the `findings` input (the prompt inputs
`guidelines`, `pr_body`, `file_content` and `repo_context` influence only
that call and are therefore not parameters of the pure model). -/
def process_file (fname : Option String) (status : String) (patch : String)
    (findings : List Finding) (existing : List ExistingComment)
    (queued : Option (List DedupKey)) : List CommentD × Option (List DedupKey) :=
  match fname with
  | none => ([], queued)
  | some name =>
    if patch = "" then ([], queued)
    else if status != "modified" && status != "added" then ([], queued)
    else reviewLoop name patch (getDiffEntries patch) existing findings queued

/-- `c.get("severity", "minor")` on a comment dict, of which
`_determine_event` reads only the severity field. -/
def pyGetSeverity (s : Option String) : String := s.getD "minor"

/-- `_determine_event(comments)`: `APPROVE` for no comments,
`REQUEST_CHANGES` when the severity set meets `{"critical", "major"}`
(set intersection modelled as existence), else `COMMENT`. -/
def _determine_event (severities : List (Option String)) : String :=
  if severities.isEmpty then "APPROVE"
  else if severities.any (fun s =>
      pyGetSeverity s == "critical" || pyGetSeverity s == "major") then
    "REQUEST_CHANGES"
  else "COMMENT"

/-- C2: `_determine_event` returns `APPROVE` exactly on the empty list,
`REQUEST_CHANGES` exactly when some comment's severity (read with default
`"minor"`) is `critical` or `major` — in particular for any mixed list with
at least one such entry — and `COMMENT` otherwise. -/
theorem determine_event_spec (cs : List (Option String)) :
    (_determine_event cs = "APPROVE" ↔ cs = []) ∧
    (_determine_event cs = "REQUEST_CHANGES" ↔
      ∃ s ∈ cs, pyGetSeverity s = "critical" ∨ pyGetSeverity s = "major") ∧
    (_determine_event cs = "COMMENT" ↔
      (cs ≠ [] ∧ ∀ s ∈ cs,
        pyGetSeverity s ≠ "critical" ∧ pyGetSeverity s ≠ "major")) := by
  cases cs with
  | nil => exact ⟨by decide, by decide, by decide⟩
  | cons c rest =>
    have hval : _determine_event (c :: rest)
        = (if (c :: rest).any (fun s =>
            pyGetSeverity s == "critical" || pyGetSeverity s == "major") then
          "REQUEST_CHANGES" else "COMMENT") := by
      simp [_determine_event]
    by_cases h : (c :: rest).any (fun s =>
        pyGetSeverity s == "critical" || pyGetSeverity s == "major") = true
    · rw [if_pos h] at hval
      have hex : ∃ s ∈ c :: rest,
          pyGetSeverity s = "critical" ∨ pyGetSeverity s = "major" := by
        obtain ⟨s, hs, hb⟩ := List.any_eq_true.mp h
        exact ⟨s, hs, by simpa using hb⟩
      refine ⟨?_, ?_, ?_⟩
      · rw [hval]
        constructor
        · intro hq; exact absurd hq (by decide)
        · intro hq; exact absurd hq (by simp)
      · rw [hval]
        exact iff_of_true rfl hex
      · rw [hval]
        constructor
        · intro hq; exact absurd hq (by decide)
        · rintro ⟨-, hall⟩
          exfalso
          obtain ⟨s, hs, hor⟩ := hex
          rcases hor with h1 | h1
          · exact (hall s hs).1 h1
          · exact (hall s hs).2 h1
    · rw [if_neg h] at hval
      have hall : ∀ s ∈ c :: rest,
          pyGetSeverity s ≠ "critical" ∧ pyGetSeverity s ≠ "major" := by
        intro s hs
        have hb : ¬((pyGetSeverity s == "critical"
            || pyGetSeverity s == "major") = true) :=
          fun hb => h (List.any_eq_true.mpr ⟨s, hs, hb⟩)
        simpa [not_or] using hb
      refine ⟨?_, ?_, ?_⟩
      · rw [hval]
        constructor
        · intro hq; exact absurd hq (by decide)
        · intro hq; exact absurd hq (by simp)
      · rw [hval]
        constructor
        · intro hq; exact absurd hq (by decide)
        · intro hex2
          exfalso
          obtain ⟨s, hs, hor⟩ := hex2
          rcases hor with h1 | h1
          · exact (hall s hs).1 h1
          · exact (hall s hs).2 h1
      · rw [hval]
        exact iff_of_true rfl ⟨by simp, hall⟩

/-- Severity label after the `_SEVERITY_RANK` coercion in `process_file`. -/
def coerceSeverity (sev : String) : String :=
  if severityRankKeys.contains sev then sev else "minor"

lemma reviewLoop_cons_none (fname patch : String) (entries : List (Int × Nat))
    (existing : List ExistingComment) (f : Finding) (rest : List Finding)
    (q : Option (List DedupKey)) (hl : f.line = none) :
    reviewLoop fname patch entries existing (f :: rest) q
      = reviewLoop fname patch entries existing rest q := by
  rw [reviewLoop, hl]

lemma reviewLoop_cons_falsy (fname patch : String) (entries : List (Int × Nat))
    (existing : List ExistingComment) (f : Finding) (rest : List Finding)
    (q : Option (List DedupKey)) (l : Int) (hl : f.line = some l)
    (h0 : l = 0 ∨ f.comment = "") :
    reviewLoop fname patch entries existing (f :: rest) q
      = reviewLoop fname patch entries existing rest q := by
  rw [reviewLoop, hl]
  rcases h0 with h | h <;> simp [h]

lemma reviewLoop_cons_nokey (fname patch : String) (entries : List (Int × Nat))
    (existing : List ExistingComment) (f : Finding) (rest : List Finding)
    (q : Option (List DedupKey)) (l : Int) (hl : f.line = some l)
    (h1 : l ≠ 0) (h2 : f.comment ≠ "") (hpos : dictFind entries l = none) :
    reviewLoop fname patch entries existing (f :: rest) q
      = reviewLoop fname patch entries existing rest q := by
  rw [reviewLoop, hl]
  simp [h1, h2, hpos]

lemma reviewLoop_cons_dup (fname patch : String) (entries : List (Int × Nat))
    (existing : List ExistingComment) (f : Finding) (rest : List Finding)
    (q : Option (List DedupKey)) (l : Int) (pos : Nat) (hl : f.line = some l)
    (h1 : l ≠ 0) (h2 : f.comment ≠ "") (hpos : dictFind entries l = some pos)
    (hdup : already_commented existing fname l f.comment q = true) :
    reviewLoop fname patch entries existing (f :: rest) q
      = reviewLoop fname patch entries existing rest q := by
  rw [reviewLoop, hl]
  simp [h1, h2, hpos, hdup]

lemma reviewLoop_cons_accept (fname patch : String) (entries : List (Int × Nat))
    (existing : List ExistingComment) (f : Finding) (rest : List Finding)
    (q : Option (List DedupKey)) (l : Int) (pos : Nat) (hl : f.line = some l)
    (h1 : l ≠ 0) (h2 : f.comment ≠ "") (hpos : dictFind entries l = some pos)
    (hdup : already_commented existing fname l f.comment q = false) :
    reviewLoop fname patch entries existing (f :: rest) q
      = ((⟨fname, pos, commentBody (coerceSeverity f.severity) f.comment, l,
            coerceSeverity f.severity, get_patch_line_content patch l⟩ : CommentD)
          :: (reviewLoop fname patch entries existing rest
                (queuedAdd q (fname, l, pyStrip f.comment))).1,
          (reviewLoop fname patch entries existing rest
                (queuedAdd q (fname, l, pyStrip f.comment))).2) := by
  rw [reviewLoop, hl]
  simp [h1, h2, hpos, hdup, coerceSeverity]

lemma reviewLoop_shape (fname patch : String) (entries : List (Int × Nat))
    (existing : List ExistingComment) :
    ∀ (findings : List Finding) (queued : Option (List DedupKey)),
    ∀ c ∈ (reviewLoop fname patch entries existing findings queued).1,
    ∃ f ∈ findings, ∃ l : Int,
      f.line = some l ∧ l ≠ 0 ∧ f.comment ≠ "" ∧
      dictFind entries l = some c.position ∧
      c = ⟨fname, c.position, commentBody (coerceSeverity f.severity) f.comment,
            l, coerceSeverity f.severity, get_patch_line_content patch l⟩ := by
  intro findings
  induction findings with
  | nil =>
    intro queued c hc
    simp [reviewLoop] at hc
  | cons f rest ih =>
    intro queued c hc
    have step : ∀ q : Option (List DedupKey),
        ∀ c ∈ (reviewLoop fname patch entries existing rest q).1,
        ∃ g ∈ f :: rest, ∃ l : Int,
          g.line = some l ∧ l ≠ 0 ∧ g.comment ≠ "" ∧
          dictFind entries l = some c.position ∧
          c = ⟨fname, c.position,
                commentBody (coerceSeverity g.severity) g.comment, l,
                coerceSeverity g.severity, get_patch_line_content patch l⟩ := by
      intro q c hc
      obtain ⟨g, hg, hrest⟩ := ih q c hc
      exact ⟨g, List.mem_cons_of_mem _ hg, hrest⟩
    cases hl : f.line with
    | none =>
      rw [reviewLoop_cons_none fname patch entries existing f rest queued hl] at hc
      exact step queued c hc
    | some l =>
      by_cases h0 : l = 0 ∨ f.comment = ""
      · rw [reviewLoop_cons_falsy fname patch entries existing f rest queued l hl h0] at hc
        exact step queued c hc
      · push_neg at h0
        obtain ⟨h1, h2⟩ := h0
        cases hpos : dictFind entries l with
        | none =>
          rw [reviewLoop_cons_nokey fname patch entries existing f rest queued l hl h1 h2 hpos] at hc
          exact step queued c hc
        | some pos =>
          cases hdup : already_commented existing fname l f.comment queued with
          | true =>
            rw [reviewLoop_cons_dup fname patch entries existing f rest queued l pos hl h1 h2 hpos hdup] at hc
            exact step queued c hc
          | false =>
            rw [reviewLoop_cons_accept fname patch entries existing f rest queued l pos hl h1 h2 hpos hdup] at hc
            simp only [List.mem_cons] at hc
            rcases hc with hc | hc
            · refine ⟨f, List.mem_cons_self .., l, hl, h1, h2, ?_, ?_⟩
              · rw [hc]; exact hpos
              · rw [hc]
            · exact step _ c hc

/-- C8: every Comment returned by `process_file` originates from a finding
with a non-`None`, non-zero line and non-empty comment text whose line is a
key of the patch's position map; its `position` is the mapped value, its
severity is the rank-coerced label (`"minor"` when unrecognized) and its
body is `**[SEVERITY]**`, a blank line, and the comment text.  For the
scenario patch `"@@ -1,2 +1,3 @@\n line1\n+new line\n line2\n"`, the
finding `line 2 / minor / "x"` produces exactly one Comment with position
2. -/
theorem process_file_comment_shape :
    (∀ (fname status patch : String) (findings : List Finding)
        (existing : List ExistingComment) (queued : Option (List DedupKey)),
      ∀ c ∈ (process_file (some fname) status patch findings existing queued).1,
      ∃ f ∈ findings, ∃ l : Int,
        f.line = some l ∧ l ≠ 0 ∧ f.comment ≠ "" ∧
        get_diff_positions patch l = some c.position ∧
        c = ⟨fname, c.position, commentBody (coerceSeverity f.severity) f.comment,
              l, coerceSeverity f.severity, get_patch_line_content patch l⟩) ∧
    process_file (some "f.py") "modified"
        "@@ -1,2 +1,3 @@\n line1\n+new line\n line2\n"
        [⟨some 2, "minor", "x"⟩] [] (some [])
      = ([⟨"f.py", 2, "**[MINOR]**\n\nx", 2, "minor", "new line"⟩],
          some [("f.py", 2, "x")]) := by
  constructor
  · intro fname status patch findings existing queued c hc
    simp only [process_file] at hc
    split at hc
    · simp at hc
    · split at hc
      · simp at hc
      · exact reviewLoop_shape fname patch (getDiffEntries patch) existing
          findings queued c hc
  · rfl

/-- Witness for C8's general clause, instantiated at the scenario input. -/
theorem process_file_comment_shape_witness :
    ∃ f ∈ [(⟨some 2, "minor", "x"⟩ : Finding)], ∃ l : Int,
      f.line = some l ∧ l ≠ 0 ∧ f.comment ≠ "" ∧
      get_diff_positions "@@ -1,2 +1,3 @@\n line1\n+new line\n line2\n" l
        = some (2 : Nat) ∧
      (⟨"f.py", 2, "**[MINOR]**\n\nx", 2, "minor", "new line"⟩ : CommentD)
        = ⟨"f.py", 2, commentBody (coerceSeverity f.severity) f.comment, l,
            coerceSeverity f.severity,
            get_patch_line_content
              "@@ -1,2 +1,3 @@\n line1\n+new line\n line2\n" l⟩ :=
  process_file_comment_shape.1 "f.py" "modified"
    "@@ -1,2 +1,3 @@\n line1\n+new line\n line2\n"
    [⟨some 2, "minor", "x"⟩] [] (some [])
    ⟨"f.py", 2, "**[MINOR]**\n\nx", 2, "minor", "new line"⟩ (by decide)

/-! ## Deduplication (C3): recovering the dedup key of a produced comment

A produced comment stores the finding text only inside its rendered body
`**[SEVERITY]**\n\n{text}`.  Since the severity header contains no newline,
the text is everything after the first blank line, which the following
extractor recovers. -/

/-- Everything after the first occurrence of two consecutive newlines. -/
def afterFirstDoubleNL : List Char → List Char
  | [] => []
  | c :: rest =>
    if c = '\n' ∧ rest.head? = some '\n' then rest.tail
    else afterFirstDoubleNL rest

/-- The comment text of a rendered comment body. -/
def textOfBody (body : String) : String :=
  ⟨afterFirstDoubleNL body.data⟩

/-- The per-run dedup identity of a produced comment dict:
`(path, line, stripped comment text)`. -/
def matchesKey (fname : String) (l : Int) (t : String) (c : CommentD) : Bool :=
  c.path == fname && c.line == l && pyStrip (textOfBody c.body) == t

lemma afterFirstDoubleNL_append (hdr : List Char) (t : List Char)
    (h : '\n' ∉ hdr) :
    afterFirstDoubleNL (hdr ++ '\n' :: '\n' :: t) = t := by
  induction hdr with
  | nil => simp [afterFirstDoubleNL]
  | cons c hs ih =>
    have hc : ¬(c = '\n') := fun hh => h (hh ▸ List.mem_cons_self ..)
    rw [List.cons_append, afterFirstDoubleNL]
    simp only [hc, false_and, if_false]
    exact ih (fun m => h (List.mem_cons_of_mem _ m))

lemma coerceSeverity_contains (s : String) :
    severityRankKeys.contains (coerceSeverity s) = true := by
  unfold coerceSeverity
  by_cases h : severityRankKeys.contains s = true
  · rw [if_pos h]; exact h
  · rw [if_neg h]; decide

lemma textOfBody_commentBody (sev text : String)
    (hsev : severityRankKeys.contains sev = true) :
    textOfBody (commentBody sev text) = text := by
  have hmem : sev = "critical" ∨ sev = "major" ∨ sev = "minor" ∨
      sev = "nitpick" := by
    simpa [severityRankKeys] using hsev
  have hdata : (commentBody sev text).data
      = ("**[" ++ pyUpper sev ++ "]**").data ++ ('\n' :: '\n' :: text.data) := by
    simp [commentBody, String.data_append]
  rcases hmem with rfl | rfl | rfl | rfl <;>
  · unfold textOfBody
    rw [hdata]
    exact congrArg String.mk (afterFirstDoubleNL_append _ _ (by decide))

lemma already_commented_of_contains (existing : List ExistingComment)
    (fname : String) (l : Int) (text : String) (q : List DedupKey)
    (h : q.contains (fname, l, pyStrip text) = true) :
    already_commented existing fname l text (some q) = true := by
  unfold already_commented
  simp only [h, if_true]

lemma key_not_queued_of_not_dup (existing : List ExistingComment)
    (fname : String) (l : Int) (text : String) (q : List DedupKey)
    (hdup : already_commented existing fname l text (some q) = false) :
    (fname, l, pyStrip text) ∉ q := by
  intro hmem
  have hcont : q.contains (fname, l, pyStrip text) = true := by simpa using hmem
  rw [already_commented_of_contains existing fname l text q hcont] at hdup
  exact absurd hdup (by simp)

lemma matchesKey_accepted (fname patch : String)
    (f : Finding) (l₀ : Int) (pos : Nat) (l : Int) (t : String) :
    matchesKey fname l t
      ⟨fname, pos, commentBody (coerceSeverity f.severity) f.comment, l₀,
        coerceSeverity f.severity, get_patch_line_content patch l₀⟩
      = (l₀ == l && pyStrip f.comment == t) := by
  unfold matchesKey
  simp only [textOfBody_commentBody _ _ (coerceSeverity_contains f.severity)]
  simp

lemma reviewLoop_dedup (fname patch : String) (entries : List (Int × Nat))
    (existing : List ExistingComment) :
    ∀ (findings : List Finding) (q : List DedupKey),
    ∃ q' : List DedupKey,
      (reviewLoop fname patch entries existing findings (some q)).2 = some q' ∧
      (∀ k, k ∈ q → k ∈ q') ∧
      (∀ (l : Int) (t : String),
        ((fname, l, t) ∈ q →
          (reviewLoop fname patch entries existing findings (some q)).1.countP
            (matchesKey fname l t) = 0) ∧
        (reviewLoop fname patch entries existing findings (some q)).1.countP
          (matchesKey fname l t) ≤ 1 ∧
        (1 ≤ (reviewLoop fname patch entries existing findings (some q)).1.countP
            (matchesKey fname l t) → (fname, l, t) ∈ q')) := by
  intro findings
  induction findings with
  | nil =>
    intro q
    exact ⟨q, rfl, fun k hk => hk, fun l t => by simp [reviewLoop]⟩
  | cons f rest ih =>
    intro q
    cases hl : f.line with
    | none =>
      obtain ⟨q', h2, hsub, hp⟩ := ih q
      exact ⟨q', by
        rwa [reviewLoop_cons_none fname patch entries existing f rest (some q) hl],
        hsub, fun l t => by
        rw [reviewLoop_cons_none fname patch entries existing f rest (some q) hl]
        exact hp l t⟩
    | some l₀ =>
      by_cases h0 : l₀ = 0 ∨ f.comment = ""
      · obtain ⟨q', h2, hsub, hp⟩ := ih q
        exact ⟨q', by
          rwa [reviewLoop_cons_falsy fname patch entries existing f rest (some q) l₀ hl h0],
          hsub, fun l t => by
          rw [reviewLoop_cons_falsy fname patch entries existing f rest (some q) l₀ hl h0]
          exact hp l t⟩
      · push_neg at h0
        obtain ⟨h1, h2c⟩ := h0
        cases hpos : dictFind entries l₀ with
        | none =>
          obtain ⟨q', h2, hsub, hp⟩ := ih q
          exact ⟨q', by
            rwa [reviewLoop_cons_nokey fname patch entries existing f rest (some q) l₀ hl h1 h2c hpos],
            hsub, fun l t => by
            rw [reviewLoop_cons_nokey fname patch entries existing f rest (some q) l₀ hl h1 h2c hpos]
            exact hp l t⟩
        | some pos =>
          cases hdup : already_commented existing fname l₀ f.comment (some q) with
          | true =>
            obtain ⟨q', h2, hsub, hp⟩ := ih q
            exact ⟨q', by
              rwa [reviewLoop_cons_dup fname patch entries existing f rest (some q) l₀ pos hl h1 h2c hpos hdup],
              hsub, fun l t => by
              rw [reviewLoop_cons_dup fname patch entries existing f rest (some q) l₀ pos hl h1 h2c hpos hdup]
              exact hp l t⟩
          | false =>
            have hkeyout : (fname, l₀, pyStrip f.comment) ∉ q :=
              key_not_queued_of_not_dup existing fname l₀ f.comment q hdup
            have hadd : queuedAdd (some q) (fname, l₀, pyStrip f.comment)
                = some (q ++ [(fname, l₀, pyStrip f.comment)]) := by
              have hcf : q.contains (fname, l₀, pyStrip f.comment) = false := by
                simpa using hkeyout
              simp only [queuedAdd]
              rw [hcf]
              simp
            obtain ⟨q', ih2, ihsub, ihp⟩ := ih (q ++ [(fname, l₀, pyStrip f.comment)])
            have heq := reviewLoop_cons_accept fname patch entries existing f
              rest (some q) l₀ pos hl h1 h2c hpos hdup
            rw [hadd] at heq
            refine ⟨q', by rw [heq]; exact ih2, ?_, ?_⟩
            · intro k hk
              exact ihsub k (List.mem_append_left _ hk)
            · intro l t
              rw [heq]
              simp only [List.countP_cons]
              rw [matchesKey_accepted fname patch f l₀ pos l t]
              by_cases hkey : l₀ = l ∧ pyStrip f.comment = t
              · obtain ⟨hkl, hkt⟩ := hkey
                have hbtrue : (l₀ == l && pyStrip f.comment == t) = true := by
                  simp [hkl, hkt]
                rw [hbtrue]
                have hinq1 : (fname, l, t) ∈ q ++ [(fname, l₀, pyStrip f.comment)] := by
                  subst hkl; subst hkt
                  exact List.mem_append_right _ (by simp)
                have hz := (ihp l t).1 hinq1
                refine ⟨?_, ?_, ?_⟩
                · intro hinq
                  exfalso
                  apply hkeyout
                  subst hkl; subst hkt
                  exact hinq
                · simp [hz]
                · intro _
                  exact ihsub _ hinq1
              · have hbfalse : (l₀ == l && pyStrip f.comment == t) = false := by
                  rcases not_and_or.mp hkey with hne | hne <;> simp [hne]
                rw [hbfalse]
                simp only [Bool.false_eq_true, if_false, Nat.add_zero]
                refine ⟨?_, (ihp l t).2.1, ?_⟩
                · intro hinq
                  exact (ihp l t).1 (List.mem_append_left _ hinq)
                · exact (ihp l t).2.2

lemma process_file_dedup (fname status patch : String) (fs : List Finding)
    (existing : List ExistingComment) (q : List DedupKey) :
    ∃ q' : List DedupKey,
      (process_file (some fname) status patch fs existing (some q)).2 = some q' ∧
      (∀ k, k ∈ q → k ∈ q') ∧
      (∀ (l : Int) (t : String),
        ((fname, l, t) ∈ q →
          (process_file (some fname) status patch fs existing (some q)).1.countP
            (matchesKey fname l t) = 0) ∧
        (process_file (some fname) status patch fs existing (some q)).1.countP
          (matchesKey fname l t) ≤ 1 ∧
        (1 ≤ (process_file (some fname) status patch fs existing (some q)).1.countP
            (matchesKey fname l t) → (fname, l, t) ∈ q')) := by
  simp only [process_file]
  split
  · exact ⟨q, rfl, fun k hk => hk, fun l t => by simp⟩
  · split
    · exact ⟨q, rfl, fun k hk => hk, fun l t => by simp⟩
    · exact reviewLoop_dedup fname patch (getDiffEntries patch) existing fs q

/-- C3: deduplication is idempotent within a run.  (i) Across one or two
`process_file` calls with the `queued` set threaded through (the second call
starts from the first call's resulting set), at most one Comment with a
given dedup identity `(path, line, stripped comment text)` is produced in
total.  (ii) A finding whose stripped text is contained in the stripped
body of an existing host comment on the same path and line (falling back to
the comment's `original_line` when its `line` is `None`) produces no
Comment and leaves the queued set unchanged. -/
theorem dedup_idempotent :
    (∀ (fname status status₂ patch patch₂ : String)
        (fs₁ fs₂ : List Finding) (existing : List ExistingComment)
        (q₀ : List DedupKey) (l : Int) (t : String),
      ((process_file (some fname) status patch fs₁ existing (some q₀)).1 ++
        (process_file (some fname) status₂ patch₂ fs₂ existing
          (process_file (some fname) status patch fs₁ existing (some q₀)).2).1).countP
        (matchesKey fname l t) ≤ 1) ∧
    (∀ (fname status patch : String) (f : Finding) (l : Int)
        (existing : List ExistingComment) (q₀ : List DedupKey)
        (e : ExistingComment),
      f.line = some l →
      e ∈ existing →
      e.path = fname →
      (match e.line with
        | some v => some v
        | none => e.original_line) = some l →
      isSubstr (pyStrip f.comment).data (pyStrip e.body).data = true →
      process_file (some fname) status patch [f] existing (some q₀)
        = ([], some q₀)) := by
  constructor
  · intro fname status status₂ patch patch₂ fs₁ fs₂ existing q₀ l t
    obtain ⟨q₁, hq₁, hsub₁, hp₁⟩ :=
      process_file_dedup fname status patch fs₁ existing q₀
    rw [hq₁, List.countP_append]
    obtain ⟨q₂, hq₂, hsub₂, hp₂⟩ :=
      process_file_dedup fname status₂ patch₂ fs₂ existing q₁
    have hb₁ := (hp₁ l t).2.1
    have hb₂ := (hp₂ l t).2.1
    rcases Nat.eq_zero_or_pos
        ((process_file (some fname) status patch fs₁ existing (some q₀)).1.countP
          (matchesKey fname l t)) with hz | hpos
    · omega
    · have hin : (fname, l, t) ∈ q₁ := (hp₁ l t).2.2 hpos
      have hz₂ := (hp₂ l t).1 hin
      omega
  · intro fname status patch f l existing q₀ e hl he hpath hline hsubstr
    simp only [process_file]
    split
    · rfl
    · split
      · rfl
      · by_cases h0 : l = 0 ∨ f.comment = ""
        · rw [reviewLoop_cons_falsy _ _ _ _ _ _ _ _ hl h0, reviewLoop]
        · push_neg at h0
          obtain ⟨h1, h2c⟩ := h0
          cases hpos : dictFind (getDiffEntries patch) l with
          | none =>
            rw [reviewLoop_cons_nokey _ _ _ _ _ _ _ _ hl h1 h2c hpos, reviewLoop]
          | some pos =>
            have hdup : already_commented existing fname l f.comment (some q₀)
                = true := by
              cases hcont : q₀.contains (fname, l, pyStrip f.comment) with
              | true =>
                exact already_commented_of_contains existing fname l f.comment q₀ hcont
              | false =>
                unfold already_commented
                simp only [hcont, if_false]
                refine List.any_eq_true.mpr ⟨e, he, ?_⟩
                simp only [hpath, hline, hsubstr]
                simp
            rw [reviewLoop_cons_dup _ _ _ _ _ _ _ _ _ hl h1 h2c hpos hdup,
              reviewLoop]

/-- Witness for C3: part (i) at a concrete threaded two-call run, and part
(ii) at a concrete finding whose text is contained in an existing host
comment on the same path and line. -/
theorem dedup_idempotent_witness :
    (((process_file (some "a.py") "modified"
          "@@ -1,2 +1,3 @@\n line1\n+new line\n line2\n"
          [⟨some 2, "minor", "x"⟩] [] (some [])).1 ++
        (process_file (some "a.py") "modified"
          "@@ -1,2 +1,3 @@\n line1\n+new line\n line2\n"
          [⟨some 2, "major", " x "⟩] []
          (process_file (some "a.py") "modified"
            "@@ -1,2 +1,3 @@\n line1\n+new line\n line2\n"
            [⟨some 2, "minor", "x"⟩] [] (some [])).2).1).countP
        (matchesKey "a.py" 2 "x") ≤ 1) ∧
    process_file (some "a.py") "modified"
        "@@ -1,2 +1,3 @@\n line1\n+new line\n line2\n"
        [⟨some 2, "minor", "x"⟩]
        [⟨"a.py", none, some 2, "**[MINOR]**\n\nx"⟩] (some [("other", 1, "y")])
      = ([], some [("other", 1, "y")]) :=
  ⟨dedup_idempotent.1 "a.py" "modified" "modified"
      "@@ -1,2 +1,3 @@\n line1\n+new line\n line2\n"
      "@@ -1,2 +1,3 @@\n line1\n+new line\n line2\n"
      [⟨some 2, "minor", "x"⟩] [⟨some 2, "major", " x "⟩] [] [] 2 "x",
    dedup_idempotent.2 "a.py" "modified"
      "@@ -1,2 +1,3 @@\n line1\n+new line\n line2\n"
      ⟨some 2, "minor", "x"⟩ 2
      [⟨"a.py", none, some 2, "**[MINOR]**\n\nx"⟩] [("other", 1, "y")]
      ⟨"a.py", none, some 2, "**[MINOR]**\n\nx"⟩
      (by decide) (by decide) (by decide) (by decide) (by decide)⟩

/-! ## `utils.context.build_context_section` — context rendering with budget

Source: `packages/core/src/prlens_core/utils/context.py`.  Dicts of
path → truncated content are modelled as association lists in insertion
order, matching Python dict iteration order.
-/

/-- `_MAX_CONTEXT_CHARS`. -/
def MAX_CONTEXT_CHARS : Nat := 20000

/-- The per-file context bundle `RepoContext`. -/
structure RepoContext where
  repo_map : String := ""
  cochanged_files : List (String × String) := []
  sibling_files : List (String × String) := []
  test_file_path : Option String := none
  test_file_content : Option String := none
deriving DecidableEq

/-- Python `"sep".join(parts)`. -/
def joinSep (sep : String) : List String → String
  | [] => ""
  | [x] => x
  | x :: y :: rest => x ++ sep ++ joinSep sep (y :: rest)

/-- Python truthiness of an optional string (`None` and `""` are falsy). -/
def truthyOpt : Option String → Bool
  | none => false
  | some s => s != ""

/-- The `repo_map_section` rendering of `build_context_section`. -/
def repoMapSection (ctx : RepoContext) : String :=
  if ctx.repo_map != "" then
    "## Repository File Tree\n" ++
    "Use this to understand the project structure, layer boundaries, " ++
    "and whether test files exist for the modules being changed.\n" ++
    "```\n" ++ ctx.repo_map ++ "\n```"
  else ""

/-- The `cochanged_section` rendering of `build_context_section`. -/
def cochangedSection (ctx : RepoContext) : String :=
  if ctx.cochanged_files.isEmpty then ""
  else
    let file_blocks := joinSep "\n\n"
      (ctx.cochanged_files.map (fun pc =>
        "### " ++ pc.1 ++ "\n```\n" ++ pc.2 ++ "\n```"))
    "## Files Frequently Changed Together With This File\n" ++
    "These files were modified in the same commits historically. " ++
    "They are likely coupled through shared contracts, configuration, " ++
    "or runtime dependencies. Use them to spot inconsistencies.\n\n" ++
    file_blocks

/-- The `sibling_section` rendering of `build_context_section`. -/
def siblingSection (ctx : RepoContext) : String :=
  if ctx.sibling_files.isEmpty then ""
  else
    let file_blocks := joinSep "\n\n"
      (ctx.sibling_files.map (fun pc =>
        "### " ++ pc.1 ++ "\n```\n" ++ pc.2 ++ "\n```"))
    "## Sibling Files (same directory)\n" ++
    "These files share the same directory and likely follow the same " ++
    "conventions. Use them to flag deviations from established patterns.\n\n" ++
    file_blocks

/-- The `test_section` rendering of `build_context_section`. -/
def testSection (ctx : RepoContext) : String :=
  if truthyOpt ctx.test_file_path && truthyOpt ctx.test_file_content then
    "## Test / Spec File (`" ++ ctx.test_file_path.getD "" ++ "`)\n" ++
    "Use this to avoid flagging already-tested behaviour and to " ++
    "identify lines added in the diff that have no test coverage.\n" ++
    "```\n" ++ ctx.test_file_content.getD "" ++ "\n```"
  else ""

/-- The `for candidate_set in priority_sets` loop: filter out empty
sections, return `""` when none remain, return the wrapped rendering when
it fits the ceiling, otherwise try the next (smaller) candidate set; `""`
with a logged warning after the last. -/
def tryCandidateSets : List (List String) → String
  | [] => ""
  | cand :: rest =>
    let parts := cand.filter (fun s => s != "")
    if parts.isEmpty then ""
    else
      let rendered := joinSep "\n\n" parts
      if rendered.length ≤ MAX_CONTEXT_CHARS then "\n\n" ++ rendered ++ "\n"
      else tryCandidateSets rest

/-- `build_context_section(repo_context)`. -/
def build_context_section (octx : Option RepoContext) : String :=
  match octx with
  | none => ""
  | some ctx =>
    tryCandidateSets
      [[repoMapSection ctx, cochangedSection ctx, siblingSection ctx,
          testSection ctx],
        [repoMapSection ctx, cochangedSection ctx, testSection ctx],
        [repoMapSection ctx, testSection ctx],
        [testSection ctx]]

lemma joinSep_mem_length (sep : String) :
    ∀ (parts : List String) (x : String), x ∈ parts →
      x.length ≤ (joinSep sep parts).length := by
  intro parts
  induction parts with
  | nil => intro x hx; simp at hx
  | cons a rest ih =>
    intro x hx
    cases rest with
    | nil =>
      simp at hx
      subst hx
      simp [joinSep]
    | cons b rest' =>
      rw [joinSep]
      rcases List.mem_cons.mp hx with rfl | hx'
      · simp only [String.length_append]
        omega
      · have := ih x hx'
        simp only [String.length_append]
        omega

lemma tryCandidateSets_cons_skip (cand : List String)
    (rest : List (List String))
    (hp : ¬((cand.filter (fun s => s != "")).isEmpty = true))
    (hbig : ¬((joinSep "\n\n" (cand.filter (fun s => s != ""))).length
      ≤ MAX_CONTEXT_CHARS)) :
    tryCandidateSets (cand :: rest) = tryCandidateSets rest := by
  rw [tryCandidateSets, if_neg hp, if_neg hbig]

lemma tryCandidateSets_cons_fit (cand : List String)
    (rest : List (List String))
    (hp : ¬((cand.filter (fun s => s != "")).isEmpty = true))
    (hfit : (joinSep "\n\n" (cand.filter (fun s => s != ""))).length
      ≤ MAX_CONTEXT_CHARS) :
    tryCandidateSets (cand :: rest)
      = "\n\n" ++ joinSep "\n\n" (cand.filter (fun s => s != "")) ++ "\n" := by
  rw [tryCandidateSets, if_neg hp, if_pos hfit]

lemma tryCandidateSets_shape :
    ∀ sets : List (List String),
      tryCandidateSets sets = "" ∨
      ∃ r : String, tryCandidateSets sets = "\n\n" ++ r ++ "\n" ∧
        r.length ≤ MAX_CONTEXT_CHARS := by
  intro sets
  induction sets with
  | nil => exact Or.inl rfl
  | cons cand rest ih =>
    rw [tryCandidateSets]
    by_cases hp : (cand.filter (fun s => s != "")).isEmpty = true
    · rw [if_pos hp]
      exact Or.inl rfl
    · rw [if_neg hp]
      by_cases hfit : (joinSep "\n\n" (cand.filter (fun s => s != ""))).length
          ≤ MAX_CONTEXT_CHARS
      · rw [if_pos hfit]
        exact Or.inr ⟨_, rfl, hfit⟩
      · rw [if_neg hfit]
        exact ih

/-- C5: `build_context_section` either returns the empty string or a
rendering `"\n\n" ++ r ++ "\n"` whose section text `r` is within the
20,000-character ceiling; and when the sibling section alone exceeds the
ceiling while the remaining sections (repo map, co-changed, test file —
siblings dropped first per the priority order) together fit, the result is
exactly the rendering without siblings, in particular retaining the repo
map section when present. -/
theorem context_budget_spec :
    (∀ octx : Option RepoContext,
      build_context_section octx = "" ∨
      ∃ r : String, build_context_section octx = "\n\n" ++ r ++ "\n" ∧
        r.length ≤ MAX_CONTEXT_CHARS) ∧
    (∀ ctx : RepoContext,
      (siblingSection ctx).length > MAX_CONTEXT_CHARS →
      ([repoMapSection ctx, cochangedSection ctx, testSection ctx].filter
          (fun s => s != "")) ≠ [] →
      (joinSep "\n\n" ([repoMapSection ctx, cochangedSection ctx,
          testSection ctx].filter (fun s => s != ""))).length
        ≤ MAX_CONTEXT_CHARS →
      build_context_section (some ctx)
        = "\n\n" ++ joinSep "\n\n" ([repoMapSection ctx, cochangedSection ctx,
            testSection ctx].filter (fun s => s != "")) ++ "\n") := by
  constructor
  · intro octx
    cases octx with
    | none => exact Or.inl rfl
    | some ctx => exact tryCandidateSets_shape _
  · intro ctx hS hne hfit
    have hSne : (siblingSection ctx != "") = true := by
      have : siblingSection ctx ≠ "" := by
        intro h
        rw [h] at hS
        simp [MAX_CONTEXT_CHARS] at hS
      simpa using this
    have hmem : siblingSection ctx ∈
        ([repoMapSection ctx, cochangedSection ctx, siblingSection ctx,
          testSection ctx].filter (fun s => s != "")) := by
      apply List.mem_filter.mpr
      exact ⟨by simp, hSne⟩
    have hbig : ¬((joinSep "\n\n"
        ([repoMapSection ctx, cochangedSection ctx, siblingSection ctx,
          testSection ctx].filter (fun s => s != ""))).length
        ≤ MAX_CONTEXT_CHARS) := by
      have := joinSep_mem_length "\n\n" _ _ hmem
      omega
    have hp1 : ¬(([repoMapSection ctx, cochangedSection ctx,
        siblingSection ctx, testSection ctx].filter
          (fun s => s != "")).isEmpty = true) := by
      intro h
      rw [List.isEmpty_iff] at h
      rw [h] at hmem
      simp at hmem
    have hp2 : ¬(([repoMapSection ctx, cochangedSection ctx,
        testSection ctx].filter (fun s => s != "")).isEmpty = true) := by
      intro h
      exact hne (List.isEmpty_iff.mp h)
    simp only [build_context_section]
    rw [tryCandidateSets_cons_skip _ _ hp1 hbig,
      tryCandidateSets_cons_fit _ _ hp2 hfit]

set_option maxRecDepth 40000 in
/-- Witness for C5's budgeting clause: a context whose sole sibling file
holds 20,000 characters of content (so the sibling section alone overflows
the ceiling) and a small repo map; the rendering drops the sibling section
and keeps the repo map. -/
theorem context_budget_spec_witness :
    build_context_section
        (some ⟨"a.py", [], [("s.py", ⟨List.replicate 20000 'a'⟩)], none, none⟩)
      = "\n\n" ++ joinSep "\n\n"
          ([repoMapSection
              ⟨"a.py", [], [("s.py", ⟨List.replicate 20000 'a'⟩)], none, none⟩,
            cochangedSection
              ⟨"a.py", [], [("s.py", ⟨List.replicate 20000 'a'⟩)], none, none⟩,
            testSection
              ⟨"a.py", [], [("s.py", ⟨List.replicate 20000 'a'⟩)], none, none⟩].filter
            (fun s => s != "")) ++ "\n" := by
  apply context_budget_spec.2
  · have h20000 : (String.mk (List.replicate 20000 'a')).length = 20000 := by
      show (List.replicate 20000 'a').length = 20000
      rw [List.length_replicate]
    have hsib : siblingSection
        ⟨"a.py", [], [("s.py", ⟨List.replicate 20000 'a'⟩)], none, none⟩
        = "## Sibling Files (same directory)\n" ++
          "These files share the same directory and likely follow the same " ++
          "conventions. Use them to flag deviations from established patterns.\n\n" ++
          ("### " ++ "s.py" ++ "\n```\n" ++
            (⟨List.replicate 20000 'a'⟩ : String) ++ "\n```") := rfl
    rw [hsib]
    simp only [String.length_append, h20000]
    have l1 : ("## Sibling Files (same directory)\n" : String).length = 34 := by
      decide
    simp only [MAX_CONTEXT_CHARS]
    omega
  · decide
  · decide

/-! ## `providers.base.BaseReviewer._parse` — response parsing (C6)

Source: `packages/core/src/prlens_core/providers/base.py`.

`re.sub(r"^```(?:json)?\s*", "", raw.strip())` removes at most one leading
fence (anchored at the start, so `re.sub` can replace at most one match),
and `re.sub(r"\s*```$", "", cleaned.strip())` removes at most one trailing
fence (anchored at the end of an already-stripped string, which ends in a
non-whitespace character, so `$` cannot match before a trailing newline
and only one match position exists).  `json.loads` is modelled by a JSON
value parser;  parse failure (`json.JSONDecodeError`) is `none`, turned
into the empty finding list.
-/

/-- A parsed JSON value.  Numbers keep the integer part as `Int` and the
literal fraction/exponent suffix as text (`""` for integers — matching
Python's int/float distinction; float rounding is not modelled, and the
non-standard literals `NaN`/`Infinity`/`-Infinity` accepted by `json.loads`
are kept as suffix-only numbers).  Objects keep their members in source
order. -/
inductive JsonValue where
  | jnull : JsonValue
  | jbool : Bool → JsonValue
  | jnum : Int → String → JsonValue
  | jstr : String → JsonValue
  | jarr : List JsonValue → JsonValue
  | jobj : List (String × JsonValue) → JsonValue

/-- JSON whitespace (` `, tab, newline, carriage return). -/
def isJsonWS (c : Char) : Bool :=
  c = ' ' || c = '\t' || c = '\n' || c = '\r'

/-- Hex digit value. -/
def hexVal (c : Char) : Option Nat :=
  if c.isDigit then some (c.toNat - 48)
  else if 'a' ≤ c ∧ c ≤ 'f' then some (c.toNat - 87)
  else if 'A' ≤ c ∧ c ≤ 'F' then some (c.toNat - 55)
  else none

/-- Body of a JSON string after the opening quote: processes escapes
(including `\uXXXX` with surrogate-pair combination; a lone surrogate,
which Python would keep, is mapped to U+FFFD as Lean `Char` excludes
surrogates), rejects unescaped control characters, and stops at the
closing quote.  The fuel argument only bounds recursion; callers pass the
input length, which is always sufficient. -/
def parseJStringAux : Nat → List Char → List Char → Option (List Char × List Char)
  | 0, _, _ => none
  | _, [], _ => none
  | fuel + 1, c :: rest, acc =>
    if c = '"' then some (acc.reverse, rest)
    else if c = '\\' then
      match rest with
      | [] => none
      | e :: rest₂ =>
        if e = '"' then parseJStringAux fuel rest₂ ('"' :: acc)
        else if e = '\\' then parseJStringAux fuel rest₂ ('\\' :: acc)
        else if e = '/' then parseJStringAux fuel rest₂ ('/' :: acc)
        else if e = 'b' then parseJStringAux fuel rest₂ ('\x08' :: acc)
        else if e = 'f' then parseJStringAux fuel rest₂ ('\x0c' :: acc)
        else if e = 'n' then parseJStringAux fuel rest₂ ('\n' :: acc)
        else if e = 'r' then parseJStringAux fuel rest₂ ('\r' :: acc)
        else if e = 't' then parseJStringAux fuel rest₂ ('\t' :: acc)
        else if e = 'u' then
          match rest₂ with
          | h₁ :: h₂ :: h₃ :: h₄ :: rest₃ =>
            match hexVal h₁, hexVal h₂, hexVal h₃, hexVal h₄ with
            | some v₁, some v₂, some v₃, some v₄ =>
              let n := ((v₁ * 16 + v₂) * 16 + v₃) * 16 + v₄
              if 0xD800 ≤ n ∧ n < 0xDC00 then
                match rest₃ with
                | '\\' :: 'u' :: g₁ :: g₂ :: g₃ :: g₄ :: rest₄ =>
                  match hexVal g₁, hexVal g₂, hexVal g₃, hexVal g₄ with
                  | some w₁, some w₂, some w₃, some w₄ =>
                    let m := ((w₁ * 16 + w₂) * 16 + w₃) * 16 + w₄
                    if 0xDC00 ≤ m ∧ m < 0xE000 then
                      parseJStringAux fuel rest₄
                        (Char.ofNat (0x10000 + (n - 0xD800) * 0x400 +
                          (m - 0xDC00)) :: acc)
                    else parseJStringAux fuel rest₄ ('\uFFFD' :: acc)
                  | _, _, _, _ => none
                | _ => parseJStringAux fuel rest₃ ('\uFFFD' :: acc)
              else if 0xDC00 ≤ n ∧ n < 0xE000 then
                parseJStringAux fuel rest₃ ('\uFFFD' :: acc)
              else parseJStringAux fuel rest₃ (Char.ofNat n :: acc)
            | _, _, _, _ => none
          | _ => none
        else none
    else if c.toNat < 0x20 then none
    else parseJStringAux fuel rest (c :: acc)

/-- Longest digit run and the remainder. -/
def takeDigits (l : List Char) : List Char × List Char :=
  (l.takeWhile Char.isDigit, l.dropWhile Char.isDigit)

/-- `(\.[0-9]+)?` as literal text. -/
def parseJFrac : List Char → Option (List Char × List Char)
  | '.' :: rest =>
    let d := takeDigits rest
    if d.1.isEmpty then none else some ('.' :: d.1, d.2)
  | l => some ([], l)

/-- `([eE][+-]?[0-9]+)?` as literal text. -/
def parseJExp : List Char → Option (List Char × List Char)
  | e :: rest =>
    if e = 'e' ∨ e = 'E' then
      let sr : List Char × List Char :=
        match rest with
        | s :: r => if s = '+' ∨ s = '-' then ([s], r) else ([], s :: r)
        | [] => ([], [])
      let d := takeDigits sr.2
      if d.1.isEmpty then none else some (e :: (sr.1 ++ d.1), d.2)
    else some ([], e :: rest)
  | [] => some ([], [])

/-- JSON number grammar after an optional leading minus:
`(0 | [1-9][0-9]*) (\.[0-9]+)? ([eE][+-]?[0-9]+)?`; returns the integer
part and the literal fraction/exponent text. -/
def parseJNumTail (l : List Char) : Option ((Nat × String) × List Char) :=
  match l with
  | [] => none
  | c :: rest =>
    if !c.isDigit then none
    else
      let p : List Char × List Char :=
        if c = '0' then ([c], rest) else takeDigits (c :: rest)
      let ival := p.1.foldl (fun a d => a * 10 + (d.toNat - 48)) 0
      match parseJFrac p.2 with
      | none => none
      | some (fracTxt, l₂) =>
        match parseJExp l₂ with
        | none => none
        | some (expTxt, l₃) => some ((ival, ⟨fracTxt ++ expTxt⟩), l₃)

mutual

/-- JSON value parser (recursive descent; the fuel argument strictly
decreases on every recursive call and callers pass a bound large enough
for any input of the given length). -/
def parseJValue : Nat → List Char → Option (JsonValue × List Char)
  | 0, _ => none
  | fuel + 1, l =>
    match l.dropWhile isJsonWS with
    | [] => none
    | c :: rest =>
      if c = '{' then parseJObjectItems fuel rest true []
      else if c = '[' then parseJArrayItems fuel rest true []
      else if c = '"' then
        (parseJStringAux (rest.length + 1) rest []).map
          (fun (s, r) => (JsonValue.jstr ⟨s⟩, r))
      else if c = '-' then
        if ('I' :: "nfinity".data).isPrefixOf (c :: rest).tail then
          some (JsonValue.jnum 0 "-Infinity", rest.drop 8)
        else
          (parseJNumTail rest).map
            (fun ((i, suf), r) => (JsonValue.jnum (-(i : Int)) suf, r))
      else if c.isDigit then
        (parseJNumTail (c :: rest)).map
          (fun ((i, suf), r) => (JsonValue.jnum (i : Int) suf, r))
      else if c = 't' ∧ "rue".data.isPrefixOf rest then
        some (JsonValue.jbool true, rest.drop 3)
      else if c = 'f' ∧ "alse".data.isPrefixOf rest then
        some (JsonValue.jbool false, rest.drop 4)
      else if c = 'n' ∧ "ull".data.isPrefixOf rest then
        some (JsonValue.jnull, rest.drop 3)
      else if c = 'N' ∧ "aN".data.isPrefixOf rest then
        some (JsonValue.jnum 0 "NaN", rest.drop 2)
      else if c = 'I' ∧ "nfinity".data.isPrefixOf rest then
        some (JsonValue.jnum 0 "Infinity", rest.drop 7)
      else none

/-- Array items after `[`; `expectFirst` is true before the first item so
that `]` closes an empty array. -/
def parseJArrayItems : Nat → List Char → Bool → List JsonValue →
    Option (JsonValue × List Char)
  | 0, _, _, _ => none
  | fuel + 1, l, expectFirst, acc =>
    match l.dropWhile isJsonWS with
    | [] => none
    | c :: rest =>
      if c = ']' ∧ expectFirst ∧ acc.isEmpty then
        some (JsonValue.jarr [], rest)
      else
        match parseJValue fuel (c :: rest) with
        | none => none
        | some (v, r) =>
          match r.dropWhile isJsonWS with
          | ',' :: r₂ => parseJArrayItems fuel r₂ false (v :: acc)
          | ']' :: r₂ => some (JsonValue.jarr (v :: acc).reverse, r₂)
          | _ => none

/-- Object members after `{`. -/
def parseJObjectItems : Nat → List Char → Bool → List (String × JsonValue) →
    Option (JsonValue × List Char)
  | 0, _, _, _ => none
  | fuel + 1, l, expectFirst, acc =>
    match l.dropWhile isJsonWS with
    | [] => none
    | c :: rest =>
      if c = '}' ∧ expectFirst ∧ acc.isEmpty then
        some (JsonValue.jobj [], rest)
      else if c = '"' then
        match parseJStringAux (rest.length + 1) rest [] with
        | none => none
        | some (k, r) =>
          match r.dropWhile isJsonWS with
          | ':' :: r₂ =>
            match parseJValue fuel r₂ with
            | none => none
            | some (v, r₃) =>
              match r₃.dropWhile isJsonWS with
              | ',' :: r₄ => parseJObjectItems fuel r₄ false ((⟨k⟩, v) :: acc)
              | '}' :: r₄ =>
                some (JsonValue.jobj ((⟨k⟩, v) :: acc).reverse, r₄)
              | _ => none
          | _ => none
      else none

end

/-- `json.loads(s)`: parse one JSON value and require only whitespace to
remain.  Fuel `2 * length + 8` strictly bounds the recursion depth, which
consumes at least one character per two nested calls. -/
def pyJsonLoads (s : String) : Option JsonValue :=
  match parseJValue (2 * s.data.length + 8) s.data with
  | some (v, r) => if (r.dropWhile isJsonWS).isEmpty then some v else none
  | none => none

/-- `re.sub(r"^```(?:json)?\s*", "", ·)`: remove one leading code fence
(with optional `json` tag and following whitespace) when present. -/
def stripLeadingFence (s : String) : String :=
  if ['`', '`', '`'].isPrefixOf s.data then
    let d₁ := s.data.drop 3
    let d₂ := if ['j', 's', 'o', 'n'].isPrefixOf d₁ then d₁.drop 4 else d₁
    ⟨d₂.dropWhile isPyWS⟩
  else s

/-- `re.sub(r"\s*```$", "", ·)` on an already-stripped string: remove one
trailing code fence and the whitespace run before it when present. -/
def stripTrailingFence (s : String) : String :=
  if ['`', '`', '`'].isSuffixOf s.data then
    ⟨dropRightWhileP isPyWS (s.data.take (s.data.length - 3))⟩
  else s

/-- The cleaned text handed to `json.loads` by `_parse`. -/
def cleanedResponse (raw : String) : String :=
  stripTrailingFence (pyStrip (stripLeadingFence (pyStrip raw)))

/-- `BaseReviewer._parse(raw)`: strip the outer fences, parse as JSON; a
parse failure (`json.JSONDecodeError`) yields the empty list. -/
def base_parse (raw : String) : JsonValue :=
  match pyJsonLoads (cleanedResponse raw) with
  | some v => v
  | none => JsonValue.jarr []

lemma string_eq_of_data {s t : String} (h : s.data = t.data) : s = t := by
  cases s
  cases t
  exact congrArg String.mk h

lemma head_false_of_dropWhile_eq {p : Char → Bool} {a : Char} {l : List Char}
    (h : (a :: l).dropWhile p = a :: l) : p a = false := by
  by_contra hh
  have ha : p a = true := by simpa using hh
  rw [List.dropWhile_cons, if_pos ha] at h
  have hlen := congrArg List.length h
  have hle := (show List.dropWhile p l <:+ l from List.dropWhile_suffix p).length_le
  simp at hlen
  omega

lemma dropWhile_eq_self_of_prefix {p : Char → Bool} {u v : List Char}
    (hu : u.dropWhile p = u) (hp : v <+: u) : v.dropWhile p = v := by
  cases v with
  | nil => rfl
  | cons a v' =>
    cases u with
    | nil =>
      obtain ⟨t, ht⟩ := hp
      simp at ht
    | cons b u' =>
      obtain ⟨t, ht⟩ := hp
      rw [List.cons_append] at ht
      have hab : a = b := (List.cons.injEq _ _ _ _).mp ht |>.1
      have hb := head_false_of_dropWhile_eq hu
      rw [List.dropWhile_cons, if_neg (by rw [hab, hb]; simp)]

lemma dropRightWhileP_prefixOf (p : Char → Bool) (l : List Char) :
    dropRightWhileP p l <+: l := by
  have h : List.dropWhile p l.reverse <:+ l.reverse := List.dropWhile_suffix p
  have h2 : (dropRightWhileP p l).reverse <:+ l.reverse := by
    unfold dropRightWhileP
    simpa using h
  exact List.reverse_suffix.mp h2

lemma dropRightWhileP_idem (p : Char → Bool) (l : List Char) :
    dropRightWhileP p (dropRightWhileP p l) = dropRightWhileP p l := by
  unfold dropRightWhileP
  simp [List.dropWhile_idempotent]

lemma pyStrip_data (s : String) :
    (pyStrip s).data = dropRightWhileP isPyWS (s.data.dropWhile isPyWS) := rfl

lemma pyStrip_dropWhile_self (s : String) :
    (pyStrip s).data.dropWhile isPyWS = (pyStrip s).data := by
  have hw : (s.data.dropWhile isPyWS).dropWhile isPyWS
      = s.data.dropWhile isPyWS := List.dropWhile_idempotent _ _
  refine dropWhile_eq_self_of_prefix hw ?_
  rw [pyStrip_data]
  exact dropRightWhileP_prefixOf _ _

lemma pyStrip_idem (s : String) : pyStrip (pyStrip s) = pyStrip s := by
  apply string_eq_of_data
  rw [pyStrip_data (pyStrip s), pyStrip_dropWhile_self, pyStrip_data,
    dropRightWhileP_idem]

lemma stripLeadingFence_suffix (s : String) :
    (stripLeadingFence s).data <:+ s.data := by
  unfold stripLeadingFence
  split
  · refine List.IsSuffix.trans (List.dropWhile_suffix _) ?_
    split
    · exact List.IsSuffix.trans (List.drop_suffix _ _) (List.drop_suffix _ _)
    · exact List.drop_suffix _ _
  · exact List.suffix_rfl

lemma stripTrailingFence_prefixOf (s : String) :
    (stripTrailingFence s).data <+: s.data := by
  unfold stripTrailingFence
  split
  · exact List.IsPrefix.trans (dropRightWhileP_prefixOf _ _) (List.take_prefix _ _)
  · exact List.prefix_rfl

lemma pyStrip_infixOf (s : String) : (pyStrip s).data <:+: s.data := by
  rw [pyStrip_data]
  exact ((dropRightWhileP_prefixOf _ _).isInfix).trans
    ((List.dropWhile_suffix _).isInfix)

lemma cleanedResponse_infixOf (raw : String) :
    (cleanedResponse raw).data <:+: raw.data := by
  unfold cleanedResponse
  refine List.IsInfix.trans (stripTrailingFence_prefixOf _).isInfix ?_
  refine List.IsInfix.trans (pyStrip_infixOf _) ?_
  refine List.IsInfix.trans (stripLeadingFence_suffix _).isInfix ?_
  exact pyStrip_infixOf raw

lemma dropRightWhileP_append_last {p : Char → Bool} (l : List Char)
    (c : Char) (hc : p c = false) :
    dropRightWhileP p (l ++ [c]) = l ++ [c] := by
  unfold dropRightWhileP
  rw [List.reverse_append]
  simp [List.dropWhile_cons, hc]

lemma cleaned_fenced (body : String)
    (hL : body.data.dropWhile isPyWS = body.data)
    (hR : dropRightWhileP isPyWS body.data = body.data)
    (hne : body ≠ "") :
    cleanedResponse ("```json\n" ++ body ++ "\n```") = body := by
  obtain ⟨a, bl, hbd, hahd⟩ :
      ∃ a bl, body.data = a :: bl ∧ isPyWS a = false := by
    cases hbd : body.data with
    | nil =>
      exfalso
      exact hne (string_eq_of_data (by rw [hbd]))
    | cons a bl =>
      exact ⟨a, bl, rfl, head_false_of_dropWhile_eq (hbd ▸ hL)⟩
  have hrawd : (("```json\n" ++ body ++ "\n```") : String).data
      = '`' :: '`' :: '`' :: 'j' :: 's' :: 'o' :: 'n' :: '\n' ::
        (body.data ++ ['\n', '`', '`', '`']) := by
    rw [String.data_append, String.data_append]
    rfl
  have hmid : (body.data ++ ['\n', '`', '`', '`'])
      = (body.data ++ ['\n', '`', '`']) ++ ['`'] := by
    simp
  have h1 : pyStrip ("```json\n" ++ body ++ "\n```")
      = "```json\n" ++ body ++ "\n```" := by
    apply string_eq_of_data
    rw [pyStrip_data, hrawd]
    rw [List.dropWhile_cons]
    simp only [show isPyWS '`' = false from rfl, Bool.false_eq_true, if_false]
    rw [show ('`' :: '`' :: '`' :: 'j' :: 's' :: 'o' :: 'n' :: '\n' ::
        (body.data ++ ['\n', '`', '`', '`']))
      = ('`' :: '`' :: '`' :: 'j' :: 's' :: 'o' :: 'n' :: '\n' ::
        (body.data ++ ['\n', '`', '`'])) ++ ['`'] by simp]
    rw [dropRightWhileP_append_last _ _ (show isPyWS '`' = false from rfl)]
  have h2 : stripLeadingFence ("```json\n" ++ body ++ "\n```")
      = ⟨body.data ++ ['\n', '`', '`', '`']⟩ := by
    unfold stripLeadingFence
    rw [hrawd]
    rw [if_pos (by simp [List.isPrefixOf])]
    apply string_eq_of_data
    simp only [List.drop]
    rw [if_pos (by simp [List.isPrefixOf])]
    rw [List.dropWhile_cons]
    simp only [show isPyWS '\n' = true from rfl, if_true]
    rw [hbd]
    rw [List.cons_append, List.dropWhile_cons]
    simp [hahd]
  have h3 : pyStrip (⟨body.data ++ ['\n', '`', '`', '`']⟩ : String)
      = ⟨body.data ++ ['\n', '`', '`', '`']⟩ := by
    apply string_eq_of_data
    rw [pyStrip_data]
    simp only []
    rw [hbd, List.cons_append, List.dropWhile_cons]
    simp only [hahd, Bool.false_eq_true, if_false]
    rw [← List.cons_append, ← hbd, hmid,
      dropRightWhileP_append_last _ _ (show isPyWS '`' = false from rfl)]
  have h4 : stripTrailingFence (⟨body.data ++ ['\n', '`', '`', '`']⟩ : String)
      = body := by
    unfold stripTrailingFence
    rw [if_pos (by
      show List.isSuffixOf _ _ = true
      unfold List.isSuffixOf
      simp [List.reverse_append, List.isPrefixOf])]
    apply string_eq_of_data
    simp only []
    rw [show (body.data ++ ['\n', '`', '`', '`']).length - 3
        = body.data.length + 1 by simp]
    rw [show (body.data ++ ['\n', '`', '`', '`'])
        = body.data ++ ['\n'] ++ ['`', '`', '`'] by simp]
    rw [show body.data.length + 1 = (body.data ++ ['\n']).length by simp]
    rw [List.take_left]
    rw [show body.data ++ ['\n'] = body.data ++ ['\n'] from rfl]
    unfold dropRightWhileP
    rw [List.reverse_append]
    simp only [List.reverse_cons, List.reverse_nil, List.nil_append,
      List.cons_append, List.dropWhile_cons]
    simp only [show isPyWS '\n' = true from rfl, if_true]
    have hRrev : body.data.reverse.dropWhile isPyWS = body.data.reverse := by
      have := congrArg List.reverse hR
      unfold dropRightWhileP at this
      simpa using this
    rw [hRrev]
    simp
  unfold cleanedResponse
  rw [h1, h2, h3, h4]

/-- C6: `_parse` strips at most one leading and one trailing Markdown fence
— the cleaned text handed to the JSON parser is a contiguous substring of
the raw response; nothing is stripped when no boundary fence is present;
and a response of the exact shape ```` ```json\n{body}\n``` ```` with a
stripped body is cleaned to precisely that body, so fences appearing
*inside* it are preserved verbatim.  The remainder is parsed as JSON and
any parse failure yields the empty list.  The concrete conjunct parses a
fenced finding array whose comment value contains an inner fenced code
block, preserved verbatim in the parsed string. -/
theorem response_parse_spec :
    (∀ raw : String, (cleanedResponse raw).data <:+: raw.data) ∧
    (∀ raw : String,
      (['`', '`', '`'].isPrefixOf (pyStrip raw).data = false) →
      (List.isSuffixOf ['`', '`', '`'] (pyStrip raw).data = false) →
      cleanedResponse raw = pyStrip raw) ∧
    (∀ body : String,
      body.data.dropWhile isPyWS = body.data →
      dropRightWhileP isPyWS body.data = body.data →
      body ≠ "" →
      cleanedResponse ("```json\n" ++ body ++ "\n```") = body) ∧
    (∀ raw : String,
      pyJsonLoads (cleanedResponse raw) = none →
      base_parse raw = JsonValue.jarr []) ∧
    base_parse
        "```json\n[\x7b\"line\": 2, \"severity\": \"minor\", \"comment\": \"Use ```python\\nx = 1\\n``` instead.\"\x7d]\n```"
      = JsonValue.jarr
          [JsonValue.jobj
            [("line", JsonValue.jnum 2 ""),
              ("severity", JsonValue.jstr "minor"),
              ("comment", JsonValue.jstr "Use ```python\nx = 1\n``` instead.")]] := by
  refine ⟨cleanedResponse_infixOf, ?_, cleaned_fenced, ?_, ?_⟩
  · intro raw hpre hsuf
    unfold cleanedResponse
    rw [show stripLeadingFence (pyStrip raw) = pyStrip raw by
      unfold stripLeadingFence
      rw [if_neg (by simp [hpre])]]
    rw [pyStrip_idem]
    unfold stripTrailingFence
    rw [if_neg (by simp [hsuf])]
  · intro raw h
    unfold base_parse
    rw [h]
  · rfl

/-- Witness for C6's fence-stripping clause at a body that itself contains
an inner triple-backtick fence, preserved verbatim. -/
theorem response_parse_spec_witness :
    cleanedResponse ("```json\n" ++ "[1, \"a ``` b\"]" ++ "\n```")
      = "[1, \"a ``` b\"]" :=
  response_parse_spec.2.2.1 "[1, \"a ``` b\"]" (by decide) (by decide)
    (by decide)

/-! ## `providers.base.BaseReviewer._call_with_retry` and `review` (C7)

The raw API call is external I/O; it is modelled as an oracle from the
attempt index to either a text response or a raised exception
(`Except.error`).  `time.sleep(delay)` is modelled by recording the delay;
the second component of the result is the list of sleeps performed, in
order. -/

/-- `MAX_RETRIES`. -/
def MAX_RETRIES : Nat := 3

/-- The `for attempt in range(max_retries)` loop of `_call_with_retry`:
return the first successful response; on the final attempt's failure
return `None`; otherwise sleep `2 ** attempt` seconds and continue.  The
first argument is the remaining number of loop iterations (initially
`max_retries`; Python returns `None` if the loop body never runs). -/
def callWithRetryGo (call : Nat → Except String String) (maxRetries : Nat) :
    Nat → Nat → Option String × List Nat
  | 0, _ => (none, [])
  | rem + 1, attempt =>
    match call attempt with
    | .ok r => (some r, [])
    | .error _ =>
      if attempt == maxRetries - 1 then (none, [])
      else
        let r := callWithRetryGo call maxRetries rem (attempt + 1)
        (r.1, 2 ^ attempt :: r.2)

/-- `_call_with_retry`, returning the response (or `None`) and the sleeps
performed. -/
def _call_with_retry (call : Nat → Except String String) (maxRetries : Nat) :
    Option String × List Nat :=
  callWithRetryGo call maxRetries maxRetries 0

/-- `BaseReviewer.review`: prompts are built (they influence only the
oracle's input and are not modelled), the raw call goes through the retry
wrapper, `None` becomes the empty list, and any text is parsed by
`_parse`. -/
def base_review (call : Nat → Except String String) : JsonValue × List Nat :=
  let r := _call_with_retry call MAX_RETRIES
  match r.1 with
  | none => (JsonValue.jarr [], r.2)
  | some raw => (base_parse raw, r.2)

/-- C7: when the raw call raises on all 3 attempts, `review` returns the
empty finding list (never an exception), and the sleeps performed between
consecutive failed attempts are `2^0 = 1` and `2^1 = 2` seconds. -/
theorem retry_exhaustion_spec (call : Nat → Except String String)
    (h : ∀ a, a < 3 → ∃ e, call a = Except.error e) :
    base_review call = (JsonValue.jarr [], [1, 2]) := by
  obtain ⟨e₀, h₀⟩ := h 0 (by omega)
  obtain ⟨e₁, h₁⟩ := h 1 (by omega)
  obtain ⟨e₂, h₂⟩ := h 2 (by omega)
  unfold base_review _call_with_retry MAX_RETRIES
  rw [callWithRetryGo, h₀]
  simp only [Nat.reduceSub, beq_iff_eq, OfNat.zero_ne_ofNat, if_false]
  rw [callWithRetryGo, h₁]
  simp only [beq_iff_eq, OfNat.one_ne_ofNat, if_false]
  rw [callWithRetryGo, h₂]
  simp

/-- Witness for C7 at an oracle failing on every attempt. -/
theorem retry_exhaustion_spec_witness :
    base_review (fun _ => Except.error "boom") = (JsonValue.jarr [], [1, 2]) :=
  retry_exhaustion_spec (fun _ => Except.error "boom")
    (fun _ _ => ⟨"boom", rfl⟩)

/-! ## `gh.pull_request.get_last_reviewed_sha` and `reviewer.run_review`

Sources: `packages/core/src/prlens_core/gh/pull_request.py` and
`packages/core/src/prlens_core/reviewer.py`.

Host I/O is modelled by oracles: the file-exclusion gate
(`_is_excluded(filename, patterns) or not is_code_file(filename)` — a pure
predicate of the filename for a fixed configuration, abstracted as
`skipFile`), per-file content fetch (`Except` for `GithubException`), the
compare call for incremental diffs, the per-file finding list returned by
`reviewer.review`, and the `_build_summary` body text (pure presentation —
elapsed-time formatting — never inspected by the control flow).
`input()` is the `userAnswer` parameter, `datetime.now` the `now`
parameter, and each `create_review` call is recorded in the returned list.
The audit log (`flush_to_file`) and console printing are I/O without
bearing on the results and are not modelled. -/

/-- Lowercase hex digit, the character class of the sha marker pattern. -/
def isHexLower (c : Char) : Bool :=
  c.isDigit || ('a' ≤ c && c ≤ 'f')

/-- Try to match `<!-- prlens-sha: ([0-9a-f]{40}) -->` at the head of the
list, returning the captured sha. -/
def matchShaAt (l : List Char) : Option String :=
  if "<!-- prlens-sha: ".data.isPrefixOf l then
    let rest := l.drop 17
    let sha := rest.take 40
    if sha.length = 40 && sha.all isHexLower &&
        " -->".data.isPrefixOf (rest.drop 40) then
      some ⟨sha⟩
    else none
  else none

/-- `_SHA_MARKER_RE.search`: the leftmost match of the marker pattern. -/
def findShaMarker : List Char → Option String
  | [] => none
  | c :: rest =>
    match matchShaAt (c :: rest) with
    | some s => some s
    | none => findShaMarker rest

/-- A past review as consumed by `get_last_reviewed_sha`. -/
structure ReviewObj where
  body : Option String := none
deriving DecidableEq

/-- `get_last_reviewed_sha(pr)`: iterate the reviews in order, searching
`review.body or ""` for the marker; the match from the latest review
wins. -/
def get_last_reviewed_sha (reviews : List ReviewObj) : Option String :=
  reviews.foldl
    (fun acc r =>
      match findShaMarker (r.body.getD "").data with
      | some s => some s
      | none => acc)
    none

/-- One changed file as consumed by the per-file loop. -/
structure PRFile where
  filename : Option String := none
  status : String := "modified"
  patch : Option String := none
deriving DecidableEq

/-- The pull request data consumed by `run_review` after `get_pull`. -/
structure PullRequestM where
  draft : Bool := false
  head_sha : String := ""
  reviews : List ReviewObj := []
  review_comments : List ExistingComment := []
  files : List PRFile := []
deriving DecidableEq

/-- The configuration keys read by `run_review` (`config.get` defaults). -/
structure ConfigM where
  review_draft_prs : Bool := false
  max_chars_per_file : Nat := 20000
  batch_limit : Nat := 60
deriving DecidableEq

/-- Host and collaborator oracles for one `run_review` run. -/
structure HostM where
  skipFile : Option String → Bool
  fetchContent : Option String → Except String String
  compareFiles : Except Unit (List PRFile)
  findingsFor : Option String → List Finding
  summaryBody : String

/-- One row of the `file_summary` list. -/
structure FileSummaryEntry where
  filename : Option String
  count : Nat
  skipped : Bool
  error : Option String
deriving DecidableEq

/-- The `{path, position, body}` projection submitted to the host API. -/
structure ApiComment where
  path : String
  position : Nat
  body : String
deriving DecidableEq

/-- One `create_review` call. -/
structure SubmittedReview where
  body : String
  event : String
  comments : List ApiComment
deriving DecidableEq

/-- `ReviewSummary`. -/
structure ReviewSummary where
  repo : String
  pr_number : Nat
  head_sha : String
  event : String
  reviewed_files : List (Option String)
  skipped_files : List (Option String)
  total_comments : Nat
  comments : List CommentD
  reviewed_at : String
deriving DecidableEq

/-- `patch[:max_chars] + marker` when over the cap. -/
def truncateWithMarker (s : String) (maxChars : Nat) (marker : String) :
    String :=
  if s.length > maxChars then ⟨s.data.take maxChars⟩ ++ marker else s

/-- Stable insertion of a file into a list sorted by filename. -/
def insertFile (x : PRFile) : List PRFile → List PRFile
  | [] => [x]
  | y :: ys =>
    if x.filename.getD "" ≤ y.filename.getD "" then x :: y :: ys
    else y :: insertFile x ys

/-- `sorted(files, key=lambda f: f.filename)` (a stable sort on the
filename key). -/
def sortFiles (files : List PRFile) : List PRFile :=
  files.foldr insertFile []

/-- Scope resolution of `run_review`: `none` is the early exit when the
stored head id equals the current one; otherwise the file list and the
incremental flag (which feeds only the summary body). -/
def resolveScope (pr : PullRequestM) (host : HostM) (force_full : Bool) :
    Option (List PRFile × Bool) :=
  if !force_full then
    match get_last_reviewed_sha pr.reviews with
    | some last =>
      if last == pr.head_sha then none
      else
        match host.compareFiles with
        | .ok fs => some (sortFiles fs, true)
        | .error _ => some (sortFiles pr.files, false)
    | none => some (sortFiles pr.files, false)
  else some (sortFiles pr.files, false)

/-- One iteration of the `for i, file in enumerate(diff_files, 1)` loop:
exclusion gate, content fetch, patch truncation and `process_file`,
threading `(all_comments, file_summary, queued)`.  The fetched file
content and the gathered repo context feed only the reviewer prompt
(the findings oracle) and do not alter control flow. -/
def fileStep (cfg : ConfigM) (host : HostM) (existing : List ExistingComment)
    (st : List CommentD × List FileSummaryEntry × Option (List DedupKey))
    (file : PRFile) :
    List CommentD × List FileSummaryEntry × Option (List DedupKey) :=
  if host.skipFile file.filename then
    (st.1, st.2.1 ++ [⟨file.filename, 0, true, none⟩], st.2.2)
  else
    match host.fetchContent file.filename with
    | .error e => (st.1, st.2.1 ++ [⟨file.filename, 0, false, some e⟩], st.2.2)
    | .ok _ =>
      let patch := truncateWithMarker (file.patch.getD "")
        cfg.max_chars_per_file "\n... [diff truncated]"
      let r := process_file file.filename file.status patch
        (host.findingsFor file.filename) existing st.2.2
      (st.1 ++ r.1, st.2.1 ++ [⟨file.filename, r.1.length, false, none⟩], r.2)

/-- The `ReviewSummary` constructed at both return sites of `run_review`. -/
def mkReviewSummary (repo : String) (pr_number : Nat)
    (head_sha event : String) (fs : List FileSummaryEntry)
    (all : List CommentD) (now : String) : ReviewSummary :=
  ⟨repo, pr_number, head_sha, event,
    (fs.filter (fun e => !e.skipped && e.error.isNone)).map (·.filename),
    (fs.filter (fun e => e.skipped)).map (·.filename),
    all.length, all, now⟩

/-- `[all_comments[i : i + batch_limit] for i in range(0, len, batch_limit)]`
(the `batch_limit = 0` case, where Python `range` would raise, yields no
batches and is unreachable: the default is 60). -/
def chunkList (n : Nat) : List CommentD → List (List CommentD)
  | [] => []
  | x :: xs =>
    if n = 0 then []
    else (x :: xs).take n :: chunkList n ((x :: xs).drop n)
termination_by l => l.length
decreasing_by simp; omega

/-- `{"path": ..., "position": ..., "body": ...}`. -/
def apiCommentOf (c : CommentD) : ApiComment := ⟨c.path, c.position, c.body⟩

/-- The batched submission loop: every batch but the last posts a progress
body with a neutral `COMMENT` event; the final batch carries the real
summary body and verdict event. -/
def batchCalls (summary_body event : String) (totalComments : Nat) :
    List (List CommentD) → Nat → List SubmittedReview
  | [], _ => []
  | [last], _ => [⟨summary_body, event, last.map apiCommentOf⟩]
  | b :: b₂ :: rest, posted =>
    ⟨"Review in progress (" ++ toString (posted + b.length) ++ "/" ++
        toString totalComments ++ " comments)...", "COMMENT",
      b.map apiCommentOf⟩
      :: batchCalls summary_body event totalComments (b₂ :: rest)
          (posted + b.length)

/-- `input(...).strip().lower() == "y"`. -/
def answerIsYes (a : String) : Bool :=
  pyLower (pyStrip a) == "y"

/-- `run_review` from the point where the pull request has been fetched
(`get_repo`/`get_pull` are host I/O; a missing PR raises before any of the
modelled behaviour).  Returns the optional `ReviewSummary` and the list of
`create_review` submissions performed. -/
def run_review (pr : PullRequestM) (cfg : ConfigM) (host : HostM)
    (repo : String) (pr_number : Nat)
    (auto_confirm shadow force_full : Bool) (userAnswer now : String) :
    Option ReviewSummary × List SubmittedReview :=
  if pr.draft && !cfg.review_draft_prs then (none, [])
  else
    match resolveScope pr host force_full with
    | none => (none, [])
    | some (diff_files, _incremental) =>
      let st := diff_files.foldl (fileStep cfg host pr.review_comments)
        ([], [], some [])
      let all_comments := st.1
      let fs := st.2.1
      let event := _determine_event
        (all_comments.map (fun c => some c.severity))
      let summary := mkReviewSummary repo pr_number pr.head_sha event fs
        all_comments now
      if shadow then (some summary, [])
      else
        let summary_body := host.summaryBody ++ "\n<!-- prlens-sha: " ++
          pr.head_sha ++ " -->"
        if all_comments.isEmpty then
          if !auto_confirm && !(answerIsYes userAnswer) then (none, [])
          else (some summary, [⟨summary_body, "APPROVE", []⟩])
        else
          if !auto_confirm && !(answerIsYes userAnswer) then (none, [])
          else
            (some summary,
              batchCalls summary_body event all_comments.length
                (chunkList cfg.batch_limit all_comments) 0)

/-- C4: with `force_full` unset, when the most recent sha stored in past
review bodies equals the current head sha, `run_review` returns `None` and
performs no host review submission. -/
theorem early_exit_on_unchanged_head (pr : PullRequestM) (cfg : ConfigM)
    (host : HostM) (repo : String) (pr_number : Nat)
    (auto_confirm shadow : Bool) (userAnswer now : String)
    (h : get_last_reviewed_sha pr.reviews = some pr.head_sha) :
    run_review pr cfg host repo pr_number auto_confirm shadow false
      userAnswer now = (none, []) := by
  have hscope : resolveScope pr host false = none := by
    unfold resolveScope
    rw [h]
    simp
  unfold run_review
  rw [hscope]
  split <;> rfl

/-- Witness for C4: one past review carrying the marker for the current
head sha. -/
theorem early_exit_on_unchanged_head_witness :
    run_review
      ⟨false,
        "aaaaaaaaaaaaaaaaaaaaaaaaaaaaaaaaaaaaaaaa",
        [⟨some ("## Review summary\n<!-- prlens-sha: aaaaaaaaaaaaaaaaaaaaaaaaaaaaaaaaaaaaaaaa -->")⟩],
        [], []⟩
      ⟨false, 20000, 60⟩
      ⟨fun _ => false, fun _ => Except.ok "", Except.error (), fun _ => [],
        "body"⟩
      "o/r" 1 false false false "y" "t"
      = (none, []) :=
  early_exit_on_unchanged_head _ _ _ _ _ _ _ _ _ (by decide)

lemma foldl_fileStep_skipflag (cfg : ConfigM) (host : HostM)
    (existing : List ExistingComment) :
    ∀ (files : List PRFile)
      (st : List CommentD × List FileSummaryEntry × Option (List DedupKey)),
    (∀ e ∈ st.2.1,
      (e.skipped = true → host.skipFile e.filename = true) ∧
      (e.skipped = false → host.skipFile e.filename = false)) →
    ∀ e ∈ (files.foldl (fileStep cfg host existing) st).2.1,
      (e.skipped = true → host.skipFile e.filename = true) ∧
      (e.skipped = false → host.skipFile e.filename = false) := by
  intro files
  induction files with
  | nil => intro st h; exact h
  | cons file rest ih =>
    intro st h
    simp only [List.foldl_cons]
    apply ih
    unfold fileStep
    cases hskip : host.skipFile file.filename with
    | true =>
      simp only [hskip, if_true]
      intro e he
      rcases List.mem_append.mp he with he | he
      · exact h e he
      · simp at he
        subst he
        exact ⟨fun _ => hskip, fun hc => by simp at hc⟩
    | false =>
      simp only [hskip, Bool.false_eq_true, if_false]
      cases hfetch : host.fetchContent file.filename with
      | error er =>
        simp only []
        intro e he
        rcases List.mem_append.mp he with he | he
        · exact h e he
        · simp at he
          subst he
          exact ⟨fun hc => by simp at hc, fun _ => hskip⟩
      | ok content =>
        simp only []
        intro e he
        rcases List.mem_append.mp he with he | he
        · exact h e he
        · simp at he
          subst he
          exact ⟨fun hc => by simp at hc, fun _ => hskip⟩

lemma mkReviewSummary_invariants (repo : String) (pr_number : Nat)
    (head_sha : String) (fs : List FileSummaryEntry) (all : List CommentD)
    (now : String) (gate : Option String → Bool)
    (hinv : ∀ e ∈ fs,
      (e.skipped = true → gate e.filename = true) ∧
      (e.skipped = false → gate e.filename = false)) :
    (mkReviewSummary repo pr_number head_sha
        (_determine_event (all.map (fun c => some c.severity))) fs all
        now).total_comments
      = (mkReviewSummary repo pr_number head_sha
          (_determine_event (all.map (fun c => some c.severity))) fs all
          now).comments.length ∧
    (mkReviewSummary repo pr_number head_sha
        (_determine_event (all.map (fun c => some c.severity))) fs all
        now).event
      = _determine_event
          ((mkReviewSummary repo pr_number head_sha
            (_determine_event (all.map (fun c => some c.severity))) fs all
            now).comments.map (fun c => some c.severity)) ∧
    ∀ f ∈ (mkReviewSummary repo pr_number head_sha
        (_determine_event (all.map (fun c => some c.severity))) fs all
        now).reviewed_files,
      f ∉ (mkReviewSummary repo pr_number head_sha
        (_determine_event (all.map (fun c => some c.severity))) fs all
        now).skipped_files := by
  refine ⟨rfl, rfl, ?_⟩
  intro f hf hmem
  unfold mkReviewSummary at hf hmem
  simp only [List.mem_map] at hf hmem
  obtain ⟨e₁, he₁, hf₁⟩ := hf
  obtain ⟨e₂, he₂, hf₂⟩ := hmem
  rw [List.mem_filter] at he₁ he₂
  have hg₁ : gate f = false := by
    rw [← hf₁]
    refine (hinv e₁ he₁.1).2 ?_
    have := he₁.2
    simp at this
    exact this.1
  have hg₂ : gate f = true := by
    rw [← hf₂]
    exact (hinv e₂ he₂.1).1 he₂.2
  rw [hg₁] at hg₂
  exact absurd hg₂ (by simp)

/-- C10: every `ReviewSummary` that `run_review` returns — in shadow mode
or after submission — has `total_comments` equal to the length of its
comments list, an event equal to the verdict computed from those same
comments, and disjoint `reviewed_files`/`skipped_files` lists. -/
theorem review_summary_invariants (pr : PullRequestM) (cfg : ConfigM)
    (host : HostM) (repo : String) (pr_number : Nat)
    (auto_confirm shadow force_full : Bool) (userAnswer now : String)
    (s : ReviewSummary)
    (h : (run_review pr cfg host repo pr_number auto_confirm shadow
      force_full userAnswer now).1 = some s) :
    s.total_comments = s.comments.length ∧
    s.event = _determine_event (s.comments.map (fun c => some c.severity)) ∧
    ∀ f ∈ s.reviewed_files, f ∉ s.skipped_files := by
  have hinv₀ : ∀ e ∈ ([] : List FileSummaryEntry),
      (e.skipped = true → host.skipFile e.filename = true) ∧
      (e.skipped = false → host.skipFile e.filename = false) := by
    intro e he
    simp at he
  unfold run_review at h
  split at h
  · simp at h
  · split at h
    · simp at h
    · rename_i x files incr heq
      have hinv := foldl_fileStep_skipflag cfg host pr.review_comments
        files ([], [], some []) hinv₀
      split at h
      · simp only [Option.some.injEq] at h
        subst h
        exact mkReviewSummary_invariants repo pr_number pr.head_sha _ _ now
          host.skipFile hinv
      · by_cases hconf : (!auto_confirm && !answerIsYes userAnswer) = true
        · simp only [hconf, if_true, ite_self] at h
          simp at h
        · have hconf' : (!auto_confirm && !answerIsYes userAnswer) = false := by
            simpa using hconf
          simp only [hconf', Bool.false_eq_true, if_false] at h
          split at h <;>
          · simp only [Option.some.injEq] at h
            subst h
            exact mkReviewSummary_invariants repo pr_number pr.head_sha _ _
              now host.skipFile hinv

/-- Witness for C10 at a concrete shadow-mode run producing one comment. -/
theorem review_summary_invariants_witness :
    (⟨"o/r", 1, "h", "COMMENT", [some "a.py"], [], 1,
        [⟨"a.py", 2, "**[MINOR]**\n\nx", 2, "minor", "new line"⟩],
        "t"⟩ : ReviewSummary).total_comments
      = (⟨"o/r", 1, "h", "COMMENT", [some "a.py"], [], 1,
          [⟨"a.py", 2, "**[MINOR]**\n\nx", 2, "minor", "new line"⟩],
          "t"⟩ : ReviewSummary).comments.length ∧
    (⟨"o/r", 1, "h", "COMMENT", [some "a.py"], [], 1,
        [⟨"a.py", 2, "**[MINOR]**\n\nx", 2, "minor", "new line"⟩],
        "t"⟩ : ReviewSummary).event
      = _determine_event
          ((⟨"o/r", 1, "h", "COMMENT", [some "a.py"], [], 1,
            [⟨"a.py", 2, "**[MINOR]**\n\nx", 2, "minor", "new line"⟩],
            "t"⟩ : ReviewSummary).comments.map (fun c => some c.severity)) ∧
    ∀ f ∈ (⟨"o/r", 1, "h", "COMMENT", [some "a.py"], [], 1,
        [⟨"a.py", 2, "**[MINOR]**\n\nx", 2, "minor", "new line"⟩],
        "t"⟩ : ReviewSummary).reviewed_files,
      f ∉ (⟨"o/r", 1, "h", "COMMENT", [some "a.py"], [], 1,
        [⟨"a.py", 2, "**[MINOR]**\n\nx", 2, "minor", "new line"⟩],
        "t"⟩ : ReviewSummary).skipped_files :=
  review_summary_invariants
    ⟨false, "h", [], [],
      [⟨some "a.py", "modified",
        some "@@ -1,2 +1,3 @@\n line1\n+new line\n line2\n"⟩]⟩
    ⟨false, 20000, 60⟩
    ⟨fun _ => false, fun _ => Except.ok "content", Except.error (),
      fun _ => [⟨some 2, "minor", "x"⟩], "SB"⟩
    "o/r" 1 false true true "y" "t" _ (by decide)
